/-
Verification of the state-reconciliation behaviour of the dellemc.enterprise_sonic
resource-module collection.

Part 1 embeds, verbatim, the declarative data that is present in the repository
sources: the `state` parameter choices and defaults declared by every resource
module's DOCUMENTATION block and by the generated argspec files
(module_utils/network/sonic/argspec/ssh/ssh.py and .../stp/stp.py), the
`mutually_exclusive` declaration of the sonic_stp argument spec, and the RETURN
declaration of sonic_mac.

Part 2 models the diff/reconcile engine itself.  The engine classes
(module_utils/network/sonic/config/<resource>/<resource>.py, imported by every
module's `main`) are not part of the source tree available here, so the engine
is modelled from the specification: ConfigNode data model (spec section 3),
Differ (section 4.2), Reconciler mode table and cross-cutting rules
(section 4.3), and CommandEmitter (section 4.4).
-/
import Mathlib

set_option autoImplicit false

/-! ## Part 1: declarations embedded from the repository sources -/

/-- The `state` option declaration of a resource module: the list of accepted
`choices` and the declared `default`, exactly as written in the module
DOCUMENTATION / argspec. -/
structure StateSpec where
  choices : List String
  default : String
deriving DecidableEq, Repr

/-- src/plugins/modules/sonic_acl_interfaces.py, DOCUMENTATION `state`. -/
def sonic_acl_interfaces_state : StateSpec :=
  ⟨["merged", "replaced", "overridden", "deleted"], "merged"⟩

/-- src/plugins/modules/sonic_bgp_ext_communities.py, DOCUMENTATION `state`. -/
def sonic_bgp_ext_communities_state : StateSpec :=
  ⟨["merged", "deleted", "replaced", "overridden"], "merged"⟩

/-- src/plugins/modules/sonic_interfaces.py, DOCUMENTATION `state`. -/
def sonic_interfaces_state : StateSpec :=
  ⟨["merged", "replaced", "overridden", "deleted"], "merged"⟩

/-- src/plugins/modules/sonic_ip_neighbor.py, DOCUMENTATION `state`. -/
def sonic_ip_neighbor_state : StateSpec :=
  ⟨["merged", "replaced", "overridden", "deleted"], "merged"⟩

/-- src/plugins/modules/sonic_l3_interfaces.py, DOCUMENTATION `state`. -/
def sonic_l3_interfaces_state : StateSpec :=
  ⟨["merged", "deleted", "replaced", "overridden"], "merged"⟩

/-- src/plugins/modules/sonic_mac.py, DOCUMENTATION `state`. -/
def sonic_mac_state : StateSpec :=
  ⟨["merged", "deleted", "replaced", "overridden"], "merged"⟩

/-- src/plugins/modules/sonic_ntp.py, DOCUMENTATION `state`. -/
def sonic_ntp_state : StateSpec :=
  ⟨["merged", "replaced", "overridden", "deleted"], "merged"⟩

/-- src/plugins/modules/sonic_ospf_area.py, DOCUMENTATION `state`. -/
def sonic_ospf_area_state : StateSpec :=
  ⟨["merged", "replaced", "overridden", "deleted"], "merged"⟩

/-- src/plugins/modules/sonic_ospfv2_interfaces.py, DOCUMENTATION `state`. -/
def sonic_ospfv2_interfaces_state : StateSpec :=
  ⟨["merged", "deleted", "replaced", "overridden"], "merged"⟩

/-- src/plugins/modules/sonic_qos_buffer.py, DOCUMENTATION `state`:
only `merged` and `deleted` are declared ("Replaced and overridden states are
not supported for this module due to configuration constraints"). -/
def sonic_qos_buffer_state : StateSpec :=
  ⟨["merged", "deleted"], "merged"⟩

/-- src/plugins/modules/sonic_qos_pfc.py, DOCUMENTATION `state`. -/
def sonic_qos_pfc_state : StateSpec :=
  ⟨["merged", "deleted", "overridden", "replaced"], "merged"⟩

/-- src/plugins/modules/sonic_qos_wred.py, DOCUMENTATION `state`. -/
def sonic_qos_wred_state : StateSpec :=
  ⟨["merged", "deleted", "overridden", "replaced"], "merged"⟩

/-- src/plugins/modules/sonic_radius_server.py, DOCUMENTATION `state`. -/
def sonic_radius_server_state : StateSpec :=
  ⟨["merged", "replaced", "overridden", "deleted"], "merged"⟩

/-- src/plugins/modules/sonic_roce.py, DOCUMENTATION `state`:
only `merged` is declared. -/
def sonic_roce_state : StateSpec :=
  ⟨["merged"], "merged"⟩

/-- src/plugins/modules/sonic_route_maps.py, DOCUMENTATION `state`. -/
def sonic_route_maps_state : StateSpec :=
  ⟨["merged", "deleted", "replaced", "overridden"], "merged"⟩

/-- src/plugins/modules/sonic_static_routes.py, DOCUMENTATION `state`. -/
def sonic_static_routes_state : StateSpec :=
  ⟨["merged", "deleted", "overridden", "replaced"], "merged"⟩

/-- src/plugins/modules/sonic_vrrp.py, DOCUMENTATION `state`. -/
def sonic_vrrp_state : StateSpec :=
  ⟨["merged", "deleted", "replaced", "overridden"], "merged"⟩

/-- src/plugins/module_utils/network/sonic/argspec/ssh/ssh.py,
`SshArgs.argument_spec` entry for `state`. -/
def ssh_argspec_state : StateSpec :=
  ⟨["merged", "deleted", "replaced", "overridden"], "merged"⟩

/-- src/plugins/module_utils/network/sonic/argspec/stp/stp.py,
`StpArgs.argument_spec` entry for `state`. -/
def stp_argspec_state : StateSpec :=
  ⟨["merged", "deleted", "replaced", "overridden"], "merged"⟩

/-- Every `state` declaration found in the source tree, keyed by the module or
argspec it comes from. -/
def allModules : List (String × StateSpec) :=
  [("sonic_acl_interfaces", sonic_acl_interfaces_state),
   ("sonic_bgp_ext_communities", sonic_bgp_ext_communities_state),
   ("sonic_interfaces", sonic_interfaces_state),
   ("sonic_ip_neighbor", sonic_ip_neighbor_state),
   ("sonic_l3_interfaces", sonic_l3_interfaces_state),
   ("sonic_mac", sonic_mac_state),
   ("sonic_ntp", sonic_ntp_state),
   ("sonic_ospf_area", sonic_ospf_area_state),
   ("sonic_ospfv2_interfaces", sonic_ospfv2_interfaces_state),
   ("sonic_qos_buffer", sonic_qos_buffer_state),
   ("sonic_qos_pfc", sonic_qos_pfc_state),
   ("sonic_qos_wred", sonic_qos_wred_state),
   ("sonic_radius_server", sonic_radius_server_state),
   ("sonic_roce", sonic_roce_state),
   ("sonic_route_maps", sonic_route_maps_state),
   ("sonic_static_routes", sonic_static_routes_state),
   ("sonic_vrrp", sonic_vrrp_state),
   ("ssh_argspec", ssh_argspec_state),
   ("stp_argspec", stp_argspec_state)]

/-- The four convergence-mode values named by the specification. -/
def fourStates : List String := ["merged", "replaced", "overridden", "deleted"]

/-- Modelled from the spec: the argument-validation step of the module runtime
(the `AnsibleModule` host contract, an external collaborator) accepts a
caller-supplied `state` value exactly when it is among the declared choices. -/
def acceptsState (s : StateSpec) (v : String) : Bool :=
  s.choices.contains v

/-- Modelled from the spec: the module runtime substitutes the declared default
when the caller omits the `state` parameter. -/
def resolveState (s : StateSpec) : Option String → String
  | some v => v
  | none => s.default

/-- src/plugins/module_utils/network/sonic/argspec/stp/stp.py, line 41:
the `mutually_exclusive` declaration of the `config` option. -/
def stp_mutually_exclusive : List (List String) :=
  [["mstp", "pvst", "rapid_pvst"]]

/-- Modelled from the spec: the module runtime's mutually-exclusive check — a
set of supplied sub-option names passes only if at most one member of each
declared exclusion group is present. -/
def mutuallyExclusiveOk (rules : List (List String)) (present : List String) : Bool :=
  rules.all (fun rule => decide ((rule.filter (fun f => present.contains f)).length ≤ 1))

/-- Modelled from the spec: a sonic_stp `config` input is admitted to diffing
only if the declared mutually-exclusive rule holds for the set of sub-options
it supplies; otherwise it is rejected at argument validation. -/
def stpConfigAccepted (present : List String) : Bool :=
  mutuallyExclusiveOk stp_mutually_exclusive present

/-- src/plugins/modules/sonic_mac.py, RETURN block: each returned key with the
condition under which the module documentation says it is returned. -/
def sonic_mac_RETURN : List (String × String) :=
  [("before", "always"),
   ("after", "when changed"),
   ("after(generated)", "when C(check_mode)"),
   ("commands", "always")]

/-- First value bound to a key in an association list of strings. -/
def lookupStr (l : List (String × String)) (k : String) : Option String :=
  (l.find? (fun p => p.1 == k)).map Prod.snd

/-! ## Part 2: the diff/reconcile engine, modelled from the specification

The engine classes (module_utils/network/sonic/config/<resource>/<resource>.py,
whose `execute_module` every module's `main` invokes) are missing from the
available source tree; the definitions below model them from the spec:
ConfigNode / KeySpec data model (section 3), the Differ (section 4.2), the
Reconciler mode table with its cross-cutting rules (section 4.3), and the
CommandEmitter (section 4.4). -/

/-- Modelled from the spec: the ConvergenceMode enum of section 3. -/
inductive Mode where
  | merged
  | replaced
  | overridden
  | deleted
deriving DecidableEq, Repr

/-- Modelled from the spec: a scalar configuration value
(Scalar(string|int|bool), section 3). -/
inductive Value where
  | s (v : String)
  | i (v : Int)
  | b (v : Bool)
deriving DecidableEq, Repr

/-- A field name inside an entity. -/
abbrev FieldName := String

/-- Modelled from the spec: one keyed record of a configuration List — an
identity (the key-field tuple, abstracted to a single natural) together with
its scalar fields. -/
structure Entity where
  key : Nat
  fields : List (FieldName × Value)
deriving DecidableEq, Repr

/-- Modelled from the spec: a configuration document for one resource — an
ordered List of keyed entities (section 3, ConfigNode List). -/
abbrev Config := List Entity

/-- Modelled from the spec: the per-resource KeySpec metadata (section 3):
fields that may not be individually deleted, fields immutable once set, and
fields required to instantiate a new entity. -/
structure KeySpec where
  nonDeletable : List FieldName
  immutable : List FieldName
  requiredForCreate : List FieldName
deriving DecidableEq, Repr

/-- First value bound to a field name in an entity's field list. -/
def lookupF (fs : List (FieldName × Value)) (f : FieldName) : Option Value :=
  (fs.find? (fun p => p.1 == f)).map Prod.snd

/-- Value of a field of an entity, `none` when the field is absent. -/
def getField (e : Entity) (f : FieldName) : Option Value :=
  lookupF e.fields f

/-- First entity with the given identity in a configuration. -/
def lookupEntity (c : Config) (k : Nat) : Option Entity :=
  c.find? (fun e => e.key == k)

/-- The identity keys of a configuration, in order. -/
def keysOf (c : Config) : List Nat :=
  c.map Entity.key

/-- A well-formed entity has no duplicate field names. -/
def Entity.wf (e : Entity) : Prop :=
  (e.fields.map Prod.fst).Nodup

/-- A configuration with pairwise distinct identity keys (the List invariant
of spec section 3). -/
def keysNodup (c : Config) : Prop :=
  (keysOf c).Nodup

/-- A valid configuration: distinct identity keys and well-formed entities. -/
def Config.wf (c : Config) : Prop :=
  keysNodup c ∧ ∀ e ∈ c, e.wf

instance (e : Entity) : Decidable e.wf := by unfold Entity.wf; infer_instance
instance (c : Config) : Decidable (keysNodup c) := by unfold keysNodup; infer_instance
instance (c : Config) : Decidable c.wf := by unfold Config.wf; infer_instance

/-- Modelled from the spec: a mode-resolved Operation (section 4.3) —
ADD of a fresh entity, REMOVE of a whole entity, field-level REMOVE inside an
entity (DELETED mode), or MODIFY carrying the resolved replacement fields. -/
inductive Operation where
  | add (key : Nat) (payload : List (FieldName × Value))
  | remove (key : Nat)
  | removeFields (key : Nat) (names : List FieldName)
  | modify (key : Nat) (payload : List (FieldName × Value))
deriving DecidableEq, Repr

/-- The identity an operation targets. -/
def opKeyOf : Operation → Nat
  | .add k _ => k
  | .remove k => k
  | .removeFields k _ => k
  | .modify k _ => k

/-- Whether an operation is an ADD. -/
def Operation.isAdd : Operation → Bool
  | .add _ _ => true
  | _ => false

/-- Overwrite (or append) one field binding. -/
def setField (fs : List (FieldName × Value)) (f : FieldName) (v : Value) :
    List (FieldName × Value) :=
  if fs.any (fun p => p.1 == f) then
    fs.map (fun p => if p.1 == f then (f, v) else p)
  else fs ++ [(f, v)]

/-- Apply a list of field changes on top of existing fields (partial merge:
fields not mentioned are untouched). -/
def upsertFields (fs changes : List (FieldName × Value)) : List (FieldName × Value) :=
  changes.foldl (fun acc p => setField acc p.1 p.2) fs

/-- Drop the named fields from a field list. -/
def removeFieldNames (fs : List (FieldName × Value)) (names : List FieldName) :
    List (FieldName × Value) :=
  fs.filter (fun p => !names.contains p.1)

/-- Two field lists that bind exactly the same names to the same values
(equality after normalization, spec section 4.2 ties rule). -/
def fieldsEquivB (a b : List (FieldName × Value)) : Bool :=
  a.all (fun p => decide (lookupF b p.1 = some p.2)) &&
    b.all (fun p => decide (lookupF a p.1 = some p.2))

/-- Modelled from the spec: an immutable field differs between current and
desired with both sides set (Differ step 5, section 4.2) — the entity delta is
promoted to destroy-and-recreate. -/
def immutConflictB (ks : KeySpec) (c d : Entity) : Bool :=
  ks.immutable.any (fun f =>
    match getField c f, getField d f with
    | some w, some v => decide (v ≠ w)
    | _, _ => false)

/-- Modelled from the spec: under full-replace semantics an immutable field
set on the device that would change (or be reverted) forces
destroy-and-recreate. -/
def immutConflictFullB (ks : KeySpec) (c d : Entity) : Bool :=
  ks.immutable.any (fun f =>
    (getField c f).isSome && decide (getField c f ≠ getField d f))

/-- Modelled from the spec: MERGED-mode resolution for one desired entity
(section 4.3 table row MERGED and Differ section 4.2): desired-only → ADD;
immutable conflict → REMOVE then ADD; otherwise MODIFY carrying the partial
field merge, emitted only when some desired field actually differs. -/
def mergedOpsFor (ks : KeySpec) (current : Config) (d : Entity) : List Operation :=
  match lookupEntity current d.key with
  | none => [.add d.key d.fields]
  | some c =>
    if immutConflictB ks c d then
      [.remove d.key, .add d.key d.fields]
    else
      let changes := d.fields.filter (fun p => decide (getField c p.1 ≠ some p.2))
      if changes.isEmpty then [] else [.modify d.key (upsertFields c.fields changes)]

/-- Modelled from the spec: REPLACED-mode resolution for one desired entity
(section 4.3 table row REPLACED): desired-only → ADD; immutable conflict →
REMOVE then ADD; otherwise MODIFY replacing the entire entity, emitted only
when the entity actually differs from desired. -/
def replacedOpsFor (ks : KeySpec) (current : Config) (d : Entity) : List Operation :=
  match lookupEntity current d.key with
  | none => [.add d.key d.fields]
  | some c =>
    if immutConflictFullB ks c d then
      [.remove d.key, .add d.key d.fields]
    else if fieldsEquivB c.fields d.fields then [] else [.modify d.key d.fields]

/-- Modelled from the spec: the OVERRIDDEN-only REMOVE candidates — every
current entity whose identity is not named in desired (section 4.3 table row
OVERRIDDEN). -/
def currentOnlyRemoves (desired current : Config) : List Operation :=
  (current.filter (fun e => (lookupEntity desired e.key).isNone)).map
    (fun e => .remove e.key)

/-- Modelled from the spec: DELETED-mode resolution for one desired selector
entity (section 4.3 table row DELETED with the non-deletable cross-cutting
rule): a selector carrying only its identity removes the whole entity; a
selector listing fields removes exactly the listed fields that are deletable
and actually present; selectors naming absent entities are ignored. -/
def deletedOpsFor (ks : KeySpec) (current : Config) (d : Entity) : List Operation :=
  match lookupEntity current d.key with
  | none => []
  | some c =>
    if d.fields.isEmpty then [.remove d.key]
    else
      let names := (d.fields.map Prod.fst).filter
        (fun f => !ks.nonDeletable.contains f && (lookupF c.fields f).isSome)
      if names.isEmpty then [] else [.removeFields d.key names]

/-- Modelled from the spec: DELETED-mode resolution — an empty/absent desired
selector removes every current entity; otherwise each selector entity is
resolved by `deletedOpsFor` (section 4.3 table row DELETED). -/
def resolveDeleted (ks : KeySpec) (desired current : Config) : List Operation :=
  if desired.isEmpty then current.map (fun e => .remove e.key)
  else desired.flatMap (deletedOpsFor ks current)

/-- Modelled from the spec: the Reconciler (section 4.3) — resolve the
structural delta between desired and current into the Operation list dictated
by the convergence mode. -/
def resolve (ks : KeySpec) (desired current : Config) : Mode → List Operation
  | .merged => desired.flatMap (mergedOpsFor ks current)
  | .replaced => desired.flatMap (replacedOpsFor ks current)
  | .overridden =>
      currentOnlyRemoves desired current ++ desired.flatMap (replacedOpsFor ks current)
  | .deleted => resolveDeleted ks desired current

/-- Modelled from the spec: effect of one Operation on a working copy of the
configuration (CommandEmitter, section 4.4). -/
def applyOp (c : Config) : Operation → Config
  | .add k p => c ++ [⟨k, p⟩]
  | .remove k => c.filter (fun e => !(e.key == k))
  | .removeFields k names =>
      c.map (fun e => if e.key == k then ⟨k, removeFieldNames e.fields names⟩ else e)
  | .modify k p => c.map (fun e => if e.key == k then ⟨k, p⟩ else e)

/-- Apply a whole Operation list in order. -/
def applyOps (c : Config) (ops : List Operation) : Config :=
  ops.foldl applyOp c

/-- Modelled from the spec: the opaque per-operation command rendering of the
CommandEmitter (resource-specific templates are external formatting rules). -/
def render : Operation → String
  | .add k _ => "add " ++ toString k
  | .remove k => "remove " ++ toString k
  | .removeFields k _ => "remove-fields " ++ toString k
  | .modify k _ => "modify " ++ toString k

/-- Modelled from the spec: an ADD payload holds every `required_for_create`
field (section 4.3 cross-cutting rule); non-ADD operations need no check. -/
def requiredOkOp (ks : KeySpec) : Operation → Bool
  | .add _ p => ks.requiredForCreate.all (fun f => (lookupF p f).isSome)
  | _ => true

/-- Modelled from the spec: the engine error taxonomy entry raised when an ADD
lacks a `required_for_create` field (section 7, IncompleteEntityError). -/
inductive EngineError where
  | incompleteEntity
deriving DecidableEq, Repr

/-- Modelled from the spec: the record the engine hands back to its caller
(section 6 result contract), with the resolved Operation list retained. -/
structure EngineResult where
  before : Config
  after : Config
  ops : List Operation
  commands : List String
  changed : Bool
deriving DecidableEq, Repr

/-- Modelled from the spec: one engine invocation (control flow of section 2):
resolve the delta per mode, validate every ADD against `required_for_create`
before any emission (all-or-nothing), then emit commands and materialize the
after state; `changed` is true iff the resolved Operation list is non-empty. -/
def engine (ks : KeySpec) (desired current : Config) (m : Mode) :
    Except EngineError EngineResult :=
  let ops := resolve ks desired current m
  if ops.all (requiredOkOp ks) then
    .ok { before := current
          after := applyOps current ops
          ops := ops
          commands := ops.map render
          changed := !ops.isEmpty }
  else .error .incompleteEntity

/-- Modelled from the spec: the keys present in the result dictionary a module
reports, following the RETURN declarations in the module sources
(src/plugins/modules/sonic_mac.py RETURN block): `before` and `commands`
always, `after` only when changed, `after(generated)` only in check mode. -/
def resultKeys (changed checkMode : Bool) : List String :=
  ["changed", "before"] ++
    (if checkMode then ["after(generated)"] else if changed then ["after"] else []) ++
    ["commands"]

/-- Modelled from the spec: the module-level invocation — run the engine and
assemble the reported result dictionary (its key set and changed flag). -/
def moduleResult (ks : KeySpec) (desired current : Config) (m : Mode) :
    Except EngineError (List String × Bool) :=
  (engine ks desired current m).map (fun r => (resultKeys r.changed false, r.changed))

/-- src/plugins/modules/sonic_ntp.py DOCUMENTATION: the `servers` list is
keyed by `address`; `key_id`, `minpoll`, `maxpoll` and `prefer` are documented
"can not be deleted". -/
def ntp_servers_keyspec : KeySpec :=
  ⟨["key_id", "minpoll", "maxpoll", "prefer"], [], []⟩

/-- src/plugins/modules/sonic_ntp.py DOCUMENTATION: the `ntp_keys` list is
keyed by `key_id`; `key_type`, `key_value` and `encrypted` are documented
"can not be deleted" and required when state is merged. -/
def ntp_keys_keyspec : KeySpec :=
  ⟨["key_type", "key_value", "encrypted"], [], ["key_type", "key_value", "encrypted"]⟩

/-- src/plugins/modules/sonic_qos_buffer.py DOCUMENTATION: `buffer_pools` is
keyed by `name`; `xoff` is a "Required non-key attribute". -/
def qos_buffer_pools_keyspec : KeySpec :=
  ⟨[], [], ["xoff"]⟩

/-- Modelled from the spec: the kind of an entity-level delta handed to the
CommandEmitter (Patch, section 3). -/
inductive DeltaKind where
  | add
  | remove
  | modify
deriving DecidableEq, Repr

/-- Modelled from the spec: one parent-entity delta with its nested child
deltas (identities only), as linearized by the CommandEmitter. -/
structure ParentDelta where
  key : Nat
  kind : DeltaKind
  childAdds : List Nat
  childRemoves : List Nat
deriving DecidableEq, Repr

/-- Modelled from the spec: an opaque device command token, tagged with the
parent/child entity it creates or deletes. -/
inductive Command where
  | addParent (k : Nat)
  | addChild (pk ck : Nat)
  | removeParent (k : Nat)
  | removeChild (pk ck : Nat)
  | modifyParent (k : Nat)
deriving DecidableEq, Repr

/-- Modelled from the spec: CommandEmitter linearization of one entity delta
(section 4.3 ordering constraints): a created parent is emitted before its
child creations; child deletions are emitted before their parent's deletion. -/
def emitEntityCommands (d : ParentDelta) : List Command :=
  match d.kind with
  | .add => Command.addParent d.key :: d.childAdds.map (Command.addChild d.key)
  | .remove =>
      d.childRemoves.map (Command.removeChild d.key) ++ [Command.removeParent d.key]
  | .modify => Command.modifyParent d.key ::
      (d.childRemoves.map (Command.removeChild d.key) ++
        d.childAdds.map (Command.addChild d.key))

/-- Modelled from the spec: CommandEmitter linearization of a whole batch of
parent deltas. -/
def emitBatch (ds : List ParentDelta) : List Command :=
  ds.flatMap emitEntityCommands

/-- The parent identity a command belongs to. -/
def cmdParentKey : Command → Nat
  | .addParent k => k
  | .addChild pk _ => pk
  | .removeParent k => k
  | .removeChild pk _ => pk
  | .modifyParent k => k

/-- Index of the first occurrence of an element, if any. -/
def idxOf? {α : Type} [DecidableEq α] : List α → α → Option Nat
  | [], _ => none
  | x :: xs, a => if x = a then some 0 else (idxOf? xs a).map (· + 1)

/-- `a` occurs in the list and its first occurrence precedes the first
occurrence of `b`. -/
def precedesB {α : Type} [DecidableEq α] (cs : List α) (a b : α) : Bool :=
  match idxOf? cs a, idxOf? cs b with
  | some i, some j => decide (i < j)
  | _, _ => false

deriving instance DecidableEq for Except

/-! ## Helper lemmas -/

theorem lookupF_self {fs : List (FieldName × Value)} {f : FieldName} {v : Value}
    (hnd : (fs.map Prod.fst).Nodup) (hmem : (f, v) ∈ fs) : lookupF fs f = some v := by
  induction fs with
  | nil => simp at hmem
  | cons p rest ih =>
    rw [List.map_cons, List.nodup_cons] at hnd
    rcases List.mem_cons.mp hmem with heq | hmem'
    · subst heq
      simp [lookupF]
    · have hf : f ∈ rest.map Prod.fst := List.mem_map.mpr ⟨(f, v), hmem', rfl⟩
      have hne : (p.1 == f) = false := by
        simp only [beq_eq_false_iff_ne]
        rintro rfl
        exact hnd.1 hf
      simp only [lookupF] at ih ⊢
      rw [List.find?_cons_of_neg _ (by simp [hne])]
      exact ih hnd.2 hmem'

theorem lookupEntity_self {c : Config} {e : Entity}
    (hnd : keysNodup c) (hmem : e ∈ c) : lookupEntity c e.key = some e := by
  induction c with
  | nil => simp at hmem
  | cons x rest ih =>
    unfold keysNodup keysOf at hnd
    rw [List.map_cons, List.nodup_cons] at hnd
    rcases List.mem_cons.mp hmem with heq | hmem'
    · subst heq
      simp [lookupEntity]
    · have hk : e.key ∈ rest.map Entity.key := List.mem_map.mpr ⟨e, hmem', rfl⟩
      have hne : (x.key == e.key) = false := by
        simp only [beq_eq_false_iff_ne]
        intro h
        exact hnd.1 (h ▸ hk)
      simp only [lookupEntity] at ih ⊢
      rw [List.find?_cons_of_neg _ (by simp [hne])]
      exact ih hnd.2 hmem'

theorem lookupEntity_isSome_of_mem_keys {c : Config} {k : Nat}
    (h : k ∈ keysOf c) : (lookupEntity c k).isSome := by
  induction c with
  | nil => simp [keysOf] at h
  | cons x rest ih =>
    by_cases hx : x.key = k
    · simp [lookupEntity, List.find?_cons_of_pos, hx]
    · have hk : k ∈ keysOf rest := by
        have h' : k ∈ x.key :: keysOf rest := h
        rcases List.mem_cons.mp h' with h1 | h2
        · exact absurd h1.symm hx
        · exact h2
      simp only [lookupEntity] at ih ⊢
      rw [List.find?_cons_of_neg _ (by simp [hx])]
      exact ih hk

theorem lookupEntity_mem {c : Config} {k : Nat} {e : Entity}
    (h : lookupEntity c k = some e) : e ∈ c ∧ e.key = k := by
  have hmem := List.mem_of_find?_eq_some h
  have hkey := List.find?_some h
  exact ⟨hmem, by simpa using hkey⟩

theorem mem_keys_of_lookupEntity {c : Config} {k : Nat} {e : Entity}
    (h : lookupEntity c k = some e) : k ∈ keysOf c := by
  obtain ⟨hmem, hkey⟩ := lookupEntity_mem h
  exact hkey ▸ List.mem_map.mpr ⟨e, hmem, rfl⟩

theorem lookupEntity_eq_none_of_not_mem_keys {c : Config} {k : Nat}
    (h : k ∉ keysOf c) : lookupEntity c k = none := by
  cases hl : lookupEntity c k with
  | none => rfl
  | some e => exact absurd (mem_keys_of_lookupEntity hl) h

theorem fieldsEquivB_refl {fs : List (FieldName × Value)}
    (hnd : (fs.map Prod.fst).Nodup) : fieldsEquivB fs fs = true := by
  simp only [fieldsEquivB, Bool.and_eq_true, List.all_eq_true]
  constructor <;>
  · intro p hp
    have := lookupF_self (f := p.1) (v := p.2) hnd (by simpa using hp)
    simp [this]

theorem immutConflictB_self (ks : KeySpec) (e : Entity) :
    immutConflictB ks e e = false := by
  simp only [immutConflictB, List.any_eq_false]
  intro f _
  cases getField e f <;> simp

theorem immutConflictFullB_self (ks : KeySpec) (e : Entity) :
    immutConflictFullB ks e e = false := by
  simp only [immutConflictFullB, List.any_eq_false]
  intro f _
  simp

theorem mergedOpsFor_self {ks : KeySpec} {c : Config} {d : Entity}
    (hl : lookupEntity c d.key = some d) (hwf : d.wf) :
    mergedOpsFor ks c d = [] := by
  have hfil : d.fields.filter (fun p => decide (getField d p.1 ≠ some p.2)) = [] := by
    rw [List.filter_eq_nil_iff]
    rintro ⟨f, v⟩ hp
    have hv := lookupF_self (show (d.fields.map Prod.fst).Nodup from hwf) hp
    simp [getField, hv]
  simp only [mergedOpsFor, hl, immutConflictB_self, Bool.false_eq_true, if_false, hfil,
    List.isEmpty_nil, if_true]

theorem replacedOpsFor_self {ks : KeySpec} {c : Config} {d : Entity}
    (hl : lookupEntity c d.key = some d) (hwf : d.wf) :
    replacedOpsFor ks c d = [] := by
  simp [replacedOpsFor, hl, immutConflictFullB_self, fieldsEquivB_refl hwf]

theorem flatMap_eq_nil {α β : Type} {l : List α} {f : α → List β}
    (h : ∀ a ∈ l, f a = []) : l.flatMap f = [] := by
  induction l with
  | nil => rfl
  | cons x rest ih =>
    rw [List.flatMap_cons, h x (List.mem_cons_self x rest), List.nil_append]
    exact ih (fun a ha => h a (List.mem_cons_of_mem _ ha))

theorem opKey_mergedOpsFor {ks : KeySpec} {current : Config} {d : Entity} {op : Operation}
    (h : op ∈ mergedOpsFor ks current d) : opKeyOf op = d.key := by
  unfold mergedOpsFor at h
  split at h
  · rcases List.mem_singleton.mp h with rfl
    rfl
  · split at h
    · rcases List.mem_cons.mp h with rfl | h'
      · rfl
      · rcases List.mem_singleton.mp h' with rfl
        rfl
    · simp only [] at h
      split at h
      · simp at h
      · rcases List.mem_singleton.mp h with rfl
        rfl

theorem opKey_replacedOpsFor {ks : KeySpec} {current : Config} {d : Entity} {op : Operation}
    (h : op ∈ replacedOpsFor ks current d) : opKeyOf op = d.key := by
  unfold replacedOpsFor at h
  split at h
  · rcases List.mem_singleton.mp h with rfl
    rfl
  · split at h
    · rcases List.mem_cons.mp h with rfl | h'
      · rfl
      · rcases List.mem_singleton.mp h' with rfl
        rfl
    · split at h
      · simp at h
      · rcases List.mem_singleton.mp h with rfl
        rfl

theorem opKey_deletedOpsFor {ks : KeySpec} {current : Config} {d : Entity} {op : Operation}
    (h : op ∈ deletedOpsFor ks current d) : opKeyOf op = d.key := by
  unfold deletedOpsFor at h
  split at h
  · simp at h
  · split at h
    · rcases List.mem_singleton.mp h with rfl
      rfl
    · simp only [] at h
      split at h
      · simp at h
      · rcases List.mem_singleton.mp h with rfl
        rfl

/-- Isolate the block of operations a given desired entity contributes to a
flatMap-resolved batch: every other operation targets a different identity. -/
theorem flatMap_block {desired : Config} (opsFor : Entity → List Operation)
    (hkey : ∀ d' op, op ∈ opsFor d' → opKeyOf op = d'.key)
    {d : Entity} (hd : keysNodup desired) (hmem : d ∈ desired) :
    ∃ pre post, desired.flatMap opsFor = pre ++ opsFor d ++ post ∧
      (∀ op ∈ pre, opKeyOf op ≠ d.key) ∧ (∀ op ∈ post, opKeyOf op ≠ d.key) := by
  induction desired with
  | nil => simp at hmem
  | cons x rest ih =>
    unfold keysNodup keysOf at hd
    rw [List.map_cons, List.nodup_cons] at hd
    rcases List.mem_cons.mp hmem with heq | hmem'
    · subst heq
      refine ⟨[], rest.flatMap opsFor, by simp, by simp, ?_⟩
      intro op hop
      obtain ⟨e, he, hoe⟩ := List.mem_flatMap.mp hop
      rw [hkey e op hoe]
      intro hcontra
      exact hd.1 (hcontra ▸ List.mem_map.mpr ⟨e, he, rfl⟩)
    · obtain ⟨pre, post, heq, hpre, hpost⟩ := ih hd.2 hmem'
      refine ⟨opsFor x ++ pre, post, by rw [List.flatMap_cons, heq]; simp, ?_, hpost⟩
      intro op hop
      rcases List.mem_append.mp hop with hx | hp
      · rw [hkey x op hx]
        intro hcontra
        exact hd.1 (hcontra ▸ List.mem_map.mpr ⟨d, hmem', rfl⟩)
      · exact hpre op hp

theorem applyOps_append (c : Config) (l1 l2 : List Operation) :
    applyOps c (l1 ++ l2) = applyOps (applyOps c l1) l2 :=
  List.foldl_append ..

theorem find?_filter_ne {c : Config} {k k' : Nat} (h : k' ≠ k) :
    (c.filter (fun e => !(e.key == k'))).find? (fun e => e.key == k) =
      c.find? (fun e => e.key == k) := by
  induction c with
  | nil => rfl
  | cons x rest ih =>
    by_cases hx : x.key = k
    · have h1 : ¬(x.key = k') := fun hc => h (hc.symm.trans hx)
      rw [List.filter_cons_of_pos (by simp [h1])]
      rw [List.find?_cons_of_pos _ (by simp [hx]), List.find?_cons_of_pos _ (by simp [hx])]
    · by_cases hx' : x.key = k'
      · rw [List.filter_cons_of_neg (by simp [hx'])]
        rw [ih, List.find?_cons_of_neg _ (by simp [hx])]
      · rw [List.filter_cons_of_pos (by simp [hx'])]
        rw [List.find?_cons_of_neg _ (by simp [hx]), List.find?_cons_of_neg _ (by simp [hx]),
          ih]

theorem find?_map_keyfun {c : Config} {k : Nat} (g : Entity → Entity)
    (hg : ∀ e, (g e).key = e.key) :
    (c.map g).find? (fun e => e.key == k) = (c.find? (fun e => e.key == k)).map g := by
  induction c with
  | nil => rfl
  | cons x rest ih =>
    by_cases hx : x.key = k
    · rw [List.map_cons, List.find?_cons_of_pos _ (by simp [hg, hx]),
        List.find?_cons_of_pos _ (by simp [hx])]
      rfl
    · rw [List.map_cons, List.find?_cons_of_neg _ (by simp [hg, hx]),
        List.find?_cons_of_neg _ (by simp [hx]), ih]

/-- An operation targeting a different identity leaves lookup at `k` unchanged. -/
theorem lookup_applyOp_ne {c : Config} {op : Operation} {k : Nat}
    (h : opKeyOf op ≠ k) : lookupEntity (applyOp c op) k = lookupEntity c k := by
  cases op with
  | add k' p =>
    simp only [opKeyOf] at h
    simp only [applyOp, lookupEntity, List.find?_append]
    have hnone : List.find? (fun e => e.key == k) [(⟨k', p⟩ : Entity)] = none := by
      simp only [List.find?_cons, List.find?_nil]
      have : ((⟨k', p⟩ : Entity).key == k) = false := by simpa using h
      rw [this]
    rw [hnone, Option.or_none]
  | remove k' =>
    simp only [opKeyOf] at h
    exact find?_filter_ne h
  | removeFields k' names =>
    simp only [opKeyOf] at h
    simp only [applyOp, lookupEntity]
    rw [find?_map_keyfun (fun e => if e.key == k' then ⟨k', removeFieldNames e.fields names⟩ else e)
      (fun e => by by_cases he : e.key = k' <;> simp [he])]
    cases hf : c.find? (fun e => e.key == k) with
    | none => rfl
    | some e =>
      have hk : e.key = k := by simpa using List.find?_some hf
      have hne : (e.key == k') = false := by simp [hk]; exact fun hc => h hc.symm
      simp only [Option.map_some', hne, Bool.false_eq_true, if_false]
  | modify k' p =>
    simp only [opKeyOf] at h
    simp only [applyOp, lookupEntity]
    rw [find?_map_keyfun (fun e => if e.key == k' then ⟨k', p⟩ else e)
      (fun e => by by_cases he : e.key = k' <;> simp [he])]
    cases hf : c.find? (fun e => e.key == k) with
    | none => rfl
    | some e =>
      have hk : e.key = k := by simpa using List.find?_some hf
      have hne : (e.key == k') = false := by simp [hk]; exact fun hc => h hc.symm
      simp only [Option.map_some', hne, Bool.false_eq_true, if_false]

theorem lookup_applyOps_ne {ops : List Operation} {c : Config} {k : Nat}
    (h : ∀ op ∈ ops, opKeyOf op ≠ k) :
    lookupEntity (applyOps c ops) k = lookupEntity c k := by
  induction ops generalizing c with
  | nil => rfl
  | cons op rest ih =>
    simp only [applyOps, List.foldl_cons] at ih ⊢
    rw [ih (fun o ho => h o (List.mem_cons_of_mem _ ho)),
      lookup_applyOp_ne (h op (List.mem_cons_self op rest))]

theorem lookup_applyOp_remove {c : Config} {k : Nat} :
    lookupEntity (applyOp c (.remove k)) k = none := by
  simp only [applyOp, lookupEntity]
  rw [List.find?_eq_none]
  intro e he
  have := (List.mem_filter.mp he).2
  simp only [Bool.not_eq_eq_eq_not, Bool.not_true, beq_eq_false_iff_ne] at this
  simp [this]

theorem lookup_applyOp_removeFields {c : Config} {k : Nat} {names : List FieldName} :
    lookupEntity (applyOp c (.removeFields k names)) k =
      (lookupEntity c k).map (fun e => ⟨k, removeFieldNames e.fields names⟩) := by
  simp only [applyOp, lookupEntity]
  rw [find?_map_keyfun (fun e => if e.key == k then ⟨k, removeFieldNames e.fields names⟩ else e)
    (fun e => by by_cases he : e.key = k <;> simp [he])]
  cases hf : c.find? (fun e => e.key == k) with
  | none => rfl
  | some e =>
    have hk : (e.key == k) = true := by simpa using List.find?_some hf
    simp only [Option.map_some', hk, if_true]

theorem lookup_applyOp_modify {c : Config} {k : Nat} {p : List (FieldName × Value)} :
    lookupEntity (applyOp c (.modify k p)) k =
      (lookupEntity c k).map (fun _ => (⟨k, p⟩ : Entity)) := by
  simp only [applyOp, lookupEntity]
  rw [find?_map_keyfun (fun e => if e.key == k then ⟨k, p⟩ else e)
    (fun e => by by_cases he : e.key = k <;> simp [he])]
  cases hf : c.find? (fun e => e.key == k) with
  | none => rfl
  | some e =>
    have hk : (e.key == k) = true := by simpa using List.find?_some hf
    simp only [Option.map_some', hk, if_true]

theorem lookup_applyOp_add {c : Config} {k : Nat} {p : List (FieldName × Value)} :
    lookupEntity (applyOp c (.add k p)) k =
      some ((lookupEntity c k).getD ⟨k, p⟩) := by
  simp only [applyOp, lookupEntity, List.find?_append]
  cases hf : c.find? (fun e => e.key == k) with
  | none => simp [Option.or, List.find?]
  | some e => simp [Option.or, hf]

/-- Applying a batch made purely of entity removals keeps exactly the entities
whose key is not removed. -/
theorem mem_applyRemoves {remKeys : List Nat} {c : Config} {e : Entity} :
    e ∈ applyOps c (remKeys.map .remove) ↔ e ∈ c ∧ e.key ∉ remKeys := by
  induction remKeys generalizing c with
  | nil => simp [applyOps]
  | cons k rest ih =>
    simp only [List.map_cons, applyOps, List.foldl_cons] at ih ⊢
    rw [ih]
    simp only [applyOp, List.mem_filter, Bool.not_eq_eq_eq_not, Bool.not_true,
      beq_eq_false_iff_ne, List.mem_cons]
    constructor
    · rintro ⟨⟨he, hne⟩, hnr⟩
      exact ⟨he, by rintro (h | h) <;> [exact hne h; exact hnr h]⟩
    · rintro ⟨he, hn⟩
      exact ⟨⟨he, fun h => hn (Or.inl h)⟩, fun h => hn (Or.inr h)⟩

theorem keysOf_map_keyfun {c : Config} (g : Entity → Entity)
    (hg : ∀ e, (g e).key = e.key) : keysOf (c.map g) = keysOf c := by
  unfold keysOf
  rw [List.map_map]
  exact List.map_congr_left (fun e _ => hg e)

/-- Any entity in the configuration after a batch either kept a key that was
already present or carries the key of some operation in the batch. -/
theorem keys_applyOps {ops : List Operation} {c : Config} {e : Entity}
    (h : e ∈ applyOps c ops) :
    e.key ∈ keysOf c ∨ ∃ op ∈ ops, opKeyOf op = e.key := by
  induction ops generalizing c with
  | nil => exact Or.inl (List.mem_map.mpr ⟨e, h, rfl⟩)
  | cons op rest ih =>
    simp only [applyOps, List.foldl_cons] at h
    rcases ih h with hkey | ⟨op', hop', hk⟩
    · cases op with
      | add k p =>
        simp only [applyOp, keysOf, List.map_append] at hkey
        rcases List.mem_append.mp hkey with h1 | h2
        · exact Or.inl h1
        · simp only [List.map_cons, List.map_nil, List.mem_singleton] at h2
          exact Or.inr ⟨.add k p, List.mem_cons_self _ _, h2.symm⟩
      | remove k =>
        simp only [applyOp, keysOf] at hkey
        obtain ⟨e', he', hk⟩ := List.mem_map.mp hkey
        exact Or.inl (hk ▸ List.mem_map.mpr ⟨e', (List.mem_filter.mp he').1, rfl⟩)
      | removeFields k names =>
        simp only [applyOp] at hkey
        rw [keysOf_map_keyfun _ (fun e => by by_cases he : e.key = k <;> simp [he])] at hkey
        exact Or.inl hkey
      | modify k p =>
        simp only [applyOp] at hkey
        rw [keysOf_map_keyfun _ (fun e => by by_cases he : e.key = k <;> simp [he])] at hkey
        exact Or.inl hkey
    · exact Or.inr ⟨op', List.mem_cons_of_mem _ hop', hk⟩

theorem lookupF_removeFieldNames_mem (fs : List (FieldName × Value)) {names : List FieldName}
    {f : FieldName} (h : f ∈ names) : lookupF (removeFieldNames fs names) f = none := by
  unfold lookupF removeFieldNames
  rw [Option.map_eq_none', List.find?_eq_none]
  intro p hp hbeq
  have h2 : (names.contains p.1) = false := by
    simpa using (List.mem_filter.mp hp).2
  have hpf : p.1 = f := by simpa using hbeq
  rw [hpf] at h2
  have h3 : f ∉ names := by simpa using h2
  exact h3 h

theorem lookupF_removeFieldNames_none {fs : List (FieldName × Value)} (names : List FieldName)
    {f : FieldName} (h : lookupF fs f = none) :
    lookupF (removeFieldNames fs names) f = none := by
  unfold lookupF removeFieldNames
  rw [Option.map_eq_none', List.find?_eq_none]
  intro p hp
  unfold lookupF at h
  rw [Option.map_eq_none', List.find?_eq_none] at h
  exact h p (List.mem_filter.mp hp).1

/-- Reconciling a valid configuration against itself under MERGED, REPLACED or
OVERRIDDEN resolves to no operations at all. -/
theorem resolve_self {ks : KeySpec} {a : Config} {m : Mode}
    (hwf : a.wf) (hm : m ≠ .deleted) : resolve ks a a m = [] := by
  obtain ⟨hnd, hewf⟩ := hwf
  cases m with
  | merged =>
    exact flatMap_eq_nil
      (fun d hd => mergedOpsFor_self (lookupEntity_self hnd hd) (hewf d hd))
  | replaced =>
    exact flatMap_eq_nil
      (fun d hd => replacedOpsFor_self (lookupEntity_self hnd hd) (hewf d hd))
  | overridden =>
    simp only [resolve]
    rw [flatMap_eq_nil
      (fun d hd => replacedOpsFor_self (lookupEntity_self hnd hd) (hewf d hd))]
    rw [List.append_nil]
    unfold currentOnlyRemoves
    have hfil : a.filter (fun e => (lookupEntity a e.key).isNone) = [] := by
      rw [List.filter_eq_nil_iff]
      intro e he
      simp [lookupEntity_self hnd he]
    rw [hfil, List.map_nil]
  | deleted => exact absurd rfl hm

theorem engine_ok_of_resolve_nil {ks : KeySpec} {desired current : Config} {m : Mode}
    (h : resolve ks desired current m = []) :
    engine ks desired current m = .ok ⟨current, current, [], [], false⟩ := by
  unfold engine
  rw [h]
  simp [applyOps]

theorem resolveDeleted_no_add {ks : KeySpec} {desired current : Config} {op : Operation}
    (h : op ∈ resolveDeleted ks desired current) : op.isAdd = false := by
  unfold resolveDeleted at h
  split at h
  · obtain ⟨e, _, rfl⟩ := List.mem_map.mp h
    rfl
  · obtain ⟨d, _, hop⟩ := List.mem_flatMap.mp h
    unfold deletedOpsFor at hop
    split at hop
    · simp at hop
    · split at hop
      · rcases List.mem_singleton.mp hop with rfl
        rfl
      · simp only [] at hop
        split at hop
        · simp at hop
        · rcases List.mem_singleton.mp hop with rfl
          rfl

/-- A DELETED-mode invocation never fails validation: the batch holds no ADD. -/
theorem engine_deleted_ok (ks : KeySpec) (desired current : Config) :
    engine ks desired current .deleted =
      .ok ⟨current, applyOps current (resolve ks desired current .deleted),
           resolve ks desired current .deleted,
           (resolve ks desired current .deleted).map render,
           !(resolve ks desired current .deleted).isEmpty⟩ := by
  have hall : (resolve ks desired current .deleted).all (requiredOkOp ks) = true := by
    rw [List.all_eq_true]
    intro op hop
    have hna : op.isAdd = false :=
      resolveDeleted_no_add (show op ∈ resolveDeleted ks desired current from hop)
    cases op with
    | add k p => simp [Operation.isAdd] at hna
    | remove k => rfl
    | removeFields k names => rfl
    | modify k p => rfl
  simp only [engine, hall, if_true]

/-- After a DELETED run, rerunning the same selector finds nothing left to
remove for any selector entity. -/
theorem deletedOpsFor_after {ks : KeySpec} {desired current : Config} {d : Entity}
    (hd : keysNodup desired) (hmem : d ∈ desired) (hne : ¬ desired.isEmpty = true) :
    deletedOpsFor ks (applyOps current (resolveDeleted ks desired current)) d = [] := by
  obtain ⟨pre, post, heq, hpre, hpost⟩ :=
    flatMap_block (deletedOpsFor ks current)
      (fun _ op h => opKey_deletedOpsFor h) hd hmem
  have hres : resolveDeleted ks desired current =
      pre ++ (deletedOpsFor ks current d ++ post) := by
    unfold resolveDeleted
    rw [if_neg hne]
    simpa [List.append_assoc] using heq
  rw [hres, applyOps_append, applyOps_append]
  have hlook1 : lookupEntity (applyOps current pre) d.key = lookupEntity current d.key :=
    lookup_applyOps_ne hpre
  have hpostskip : ∀ c' : Config,
      lookupEntity (applyOps c' post) d.key = lookupEntity c' d.key :=
    fun c' => lookup_applyOps_ne hpost
  cases hl : lookupEntity current d.key with
  | none =>
    have hblk : deletedOpsFor ks current d = [] := by
      unfold deletedOpsFor
      rw [hl]
    rw [hblk]
    have : lookupEntity
        (applyOps (applyOps (applyOps current pre) []) post) d.key = none := by
      rw [hpostskip]
      simpa [applyOps] using hlook1.trans hl
    unfold deletedOpsFor
    rw [this]
  | some c =>
    by_cases hfe : d.fields.isEmpty = true
    · have hblk : deletedOpsFor ks current d = [.remove d.key] := by
        simp only [deletedOpsFor, hl]
        rw [if_pos hfe]
      rw [hblk]
      have : lookupEntity
          (applyOps (applyOps (applyOps current pre) [.remove d.key]) post) d.key = none := by
        rw [hpostskip]
        show lookupEntity (applyOp (applyOps current pre) (.remove d.key)) d.key = none
        exact lookup_applyOp_remove
      unfold deletedOpsFor
      rw [this]
    · set names := (d.fields.map Prod.fst).filter
        (fun f => !ks.nonDeletable.contains f && (lookupF c.fields f).isSome) with hnames
      by_cases hns : names.isEmpty = true
      · have hblk : deletedOpsFor ks current d = [] := by
          simp only [deletedOpsFor, hl]
          rw [if_neg hfe, ← hnames, if_pos hns]
        rw [hblk]
        have hlk : lookupEntity
            (applyOps (applyOps (applyOps current pre) []) post) d.key = some c := by
          rw [hpostskip]
          simpa [applyOps] using hlook1.trans hl
        simp only [deletedOpsFor, hlk]
        rw [if_neg hfe, ← hnames, if_pos hns]
      · have hblk : deletedOpsFor ks current d = [.removeFields d.key names] := by
          simp only [deletedOpsFor, hl]
          rw [if_neg hfe, ← hnames, if_neg hns]
        rw [hblk]
        have hlk : lookupEntity
            (applyOps (applyOps (applyOps current pre) [.removeFields d.key names]) post)
              d.key = some ⟨d.key, removeFieldNames c.fields names⟩ := by
          rw [hpostskip]
          show lookupEntity
            (applyOp (applyOps current pre) (.removeFields d.key names)) d.key = _
          rw [lookup_applyOp_removeFields, hlook1, hl]
          rfl
        simp only [deletedOpsFor, hlk]
        rw [if_neg hfe]
        have hnil : (d.fields.map Prod.fst).filter
            (fun f => !ks.nonDeletable.contains f &&
              (lookupF (removeFieldNames c.fields names) f).isSome) = [] := by
          rw [List.filter_eq_nil_iff]
          intro f hf hcond
          rw [Bool.and_eq_true] at hcond
          cases hlcf : lookupF c.fields f with
          | some v =>
            have hfn : f ∈ names := by
              rw [hnames]
              refine List.mem_filter.mpr ⟨hf, ?_⟩
              rw [Bool.and_eq_true]
              exact ⟨hcond.1, by simp [hlcf]⟩
            have := lookupF_removeFieldNames_mem c.fields hfn
            rw [this] at hcond
            simp at hcond
          | none =>
            have := lookupF_removeFieldNames_none names hlcf
            rw [this] at hcond
            simp at hcond
        rw [hnil]
        simp

/-- Rerunning DELETED with the same selector on the resulting configuration
resolves to no operations. -/
theorem resolveDeleted_after_self {ks : KeySpec} {desired current : Config}
    (hd : keysNodup desired) :
    resolveDeleted ks desired (applyOps current (resolveDeleted ks desired current)) = [] := by
  by_cases hne : desired.isEmpty = true
  · have hdes : desired = [] := by
      cases desired
      · rfl
      · simp at hne
    subst hdes
    have hafter : applyOps current (resolveDeleted ks [] current) = [] := by
      rw [List.eq_nil_iff_forall_not_mem]
      intro e he
      unfold resolveDeleted at he
      simp only [List.isEmpty_nil, if_true] at he
      have hmaps : List.map (fun e => Operation.remove e.key) current =
          (keysOf current).map Operation.remove := by
        unfold keysOf
        rw [List.map_map]
        rfl
      rw [hmaps] at he
      obtain ⟨hmem, hnin⟩ := mem_applyRemoves.mp he
      exact hnin (List.mem_map.mpr ⟨e, hmem, rfl⟩)
    rw [hafter]
    rfl
  · set after := applyOps current (resolveDeleted ks desired current) with hafter
    show resolveDeleted ks desired after = []
    unfold resolveDeleted
    rw [if_neg hne]
    refine flatMap_eq_nil (fun d hdm => ?_)
    rw [hafter]
    exact deletedOpsFor_after hd hdm hne

/-- C1 counterexample: under DELETED, reconciling `desired = after` against
`current = after` (with `after` the non-empty result of a previous DELETED
run) reports changed and a non-empty command list, refuting the claim's
universal quantification over modes. -/
theorem C1_counterexample :
    ((engine ⟨[], [], []⟩ [⟨2, []⟩] [⟨1, [("cost", Value.i 30)]⟩, ⟨2, []⟩]
        Mode.deleted).map EngineResult.after = .ok [⟨1, [("cost", Value.i 30)]⟩]) ∧
    ((engine ⟨[], [], []⟩ [⟨1, [("cost", Value.i 30)]⟩] [⟨1, [("cost", Value.i 30)]⟩]
        Mode.deleted).map EngineResult.changed = .ok true) ∧
    ((engine ⟨[], [], []⟩ [⟨1, [("cost", Value.i 30)]⟩] [⟨1, [("cost", Value.i 30)]⟩]
        Mode.deleted).map EngineResult.commands ≠ .ok []) := by
  refine ⟨by decide, by decide, by decide⟩

/-- C1 (amended): idempotence of reconciliation. For MERGED, REPLACED and
OVERRIDDEN, reconciling any valid configuration (in particular the `after` of
a previous run) against itself yields changed = false and no commands; for
DELETED, rerunning the same selector against the `after` of the previous
DELETED run yields changed = false and no commands; and whenever no candidate
survives mode resolution the engine reports unchanged with an empty command
list. -/
theorem C1_amended_thm :
    (∀ (ks : KeySpec) (m : Mode) (a : Config), a.wf → m ≠ .deleted →
      (engine ks a a m).map EngineResult.changed = .ok false ∧
      (engine ks a a m).map EngineResult.commands = .ok []) ∧
    (∀ (ks : KeySpec) (desired current : Config) (r : EngineResult),
      keysNodup desired → engine ks desired current .deleted = .ok r →
      (engine ks desired r.after .deleted).map EngineResult.changed = .ok false ∧
      (engine ks desired r.after .deleted).map EngineResult.commands = .ok []) ∧
    (∀ (ks : KeySpec) (desired current : Config) (m : Mode),
      resolve ks desired current m = [] →
      (engine ks desired current m).map EngineResult.changed = .ok false ∧
      (engine ks desired current m).map EngineResult.commands = .ok []) := by
  refine ⟨?_, ?_, ?_⟩
  · intro ks m a hwf hm
    rw [engine_ok_of_resolve_nil (resolve_self hwf hm)]
    exact ⟨rfl, rfl⟩
  · intro ks desired current r hd hr
    rw [engine_deleted_ok ks desired current] at hr
    injection hr with h2
    subst h2
    have hnil : resolve ks desired
        (applyOps current (resolve ks desired current .deleted)) .deleted = [] :=
      resolveDeleted_after_self hd
    dsimp only
    rw [engine_ok_of_resolve_nil hnil]
    exact ⟨rfl, rfl⟩
  · intro ks desired current m h
    rw [engine_ok_of_resolve_nil h]
    exact ⟨rfl, rfl⟩

/-- C1 witness: the amended idempotence at concrete inputs. -/
theorem C1_amended_witness :
    ((engine ⟨[], [], []⟩ [⟨1, [("x", Value.i 3)]⟩] [⟨1, [("x", Value.i 3)]⟩]
        Mode.merged).map EngineResult.changed = .ok false) ∧
    ((engine ⟨[], [], []⟩ [⟨2, []⟩] [⟨1, []⟩] Mode.deleted).map
        EngineResult.changed = .ok false) :=
  ⟨(C1_amended_thm.1 ⟨[], [], []⟩ Mode.merged [⟨1, [("x", Value.i 3)]⟩]
      (by decide) (by decide)).1,
   (C1_amended_thm.2.1 ⟨[], [], []⟩ [⟨2, []⟩] [⟨1, []⟩]
      ⟨[⟨1, []⟩], [⟨1, []⟩], [], [], false⟩ (by decide) (by decide)).1⟩

/-- Shape of any successful engine invocation. -/
theorem engine_ok_spec {ks : KeySpec} {desired current : Config} {m : Mode} {r : EngineResult}
    (h : engine ks desired current m = .ok r) :
    r = ⟨current, applyOps current (resolve ks desired current m),
         resolve ks desired current m,
         (resolve ks desired current m).map render,
         !(resolve ks desired current m).isEmpty⟩ := by
  simp only [engine] at h
  split at h
  · injection h with h2
    exact h2.symm
  · cases h

theorem currentOnlyRemoves_key_ne {desired current : Config} {d : Entity} {op : Operation}
    (hmem : d ∈ desired) (hop : op ∈ currentOnlyRemoves desired current) :
    opKeyOf op ≠ d.key := by
  unfold currentOnlyRemoves at hop
  obtain ⟨e, he, rfl⟩ := List.mem_map.mp hop
  have hnone : (lookupEntity desired e.key).isNone = true := (List.mem_filter.mp he).2
  intro hk
  have hek : e.key = d.key := hk
  have hds : (lookupEntity desired d.key).isSome :=
    lookupEntity_isSome_of_mem_keys (List.mem_map.mpr ⟨d, hmem, rfl⟩)
  rw [Option.isNone_iff_eq_none] at hnone
  rw [hek] at hnone
  rw [hnone] at hds
  simp at hds

/-- Under OVERRIDDEN, every desired entity ends up in the after state with
exactly its desired fields (up to normalization). -/
theorem lookup_after_overridden {ks : KeySpec} {desired current : Config} {d : Entity}
    (hd : keysNodup desired) (hmem : d ∈ desired) (hwfd : d.wf) :
    ∃ e, lookupEntity (applyOps current (resolve ks desired current .overridden)) d.key
          = some e ∧ fieldsEquivB e.fields d.fields = true := by
  obtain ⟨pre, post, heq, hpre, hpost⟩ :=
    flatMap_block (replacedOpsFor ks current)
      (fun _ op h => opKey_replacedOpsFor h) hd hmem
  have hsplit : resolve ks desired current .overridden =
      currentOnlyRemoves desired current ++ (pre ++ (replacedOpsFor ks current d ++ post)) := by
    show currentOnlyRemoves desired current ++ desired.flatMap (replacedOpsFor ks current) = _
    rw [heq]
    simp [List.append_assoc]
  rw [hsplit, applyOps_append, applyOps_append, applyOps_append]
  have hrem : lookupEntity (applyOps current (currentOnlyRemoves desired current)) d.key =
      lookupEntity current d.key :=
    lookup_applyOps_ne (fun op hop => currentOnlyRemoves_key_ne hmem hop)
  have hpre' : lookupEntity
      (applyOps (applyOps current (currentOnlyRemoves desired current)) pre) d.key =
      lookupEntity current d.key :=
    (lookup_applyOps_ne hpre).trans hrem
  set c1 := applyOps (applyOps current (currentOnlyRemoves desired current)) pre with hc1
  have hpostskip : ∀ c' : Config,
      lookupEntity (applyOps c' post) d.key = lookupEntity c' d.key :=
    fun c' => lookup_applyOps_ne hpost
  cases hl : lookupEntity current d.key with
  | none =>
    have hblk : replacedOpsFor ks current d = [.add d.key d.fields] := by
      simp only [replacedOpsFor, hl]
    rw [hblk]
    refine ⟨⟨d.key, d.fields⟩, ?_, fieldsEquivB_refl hwfd⟩
    rw [hpostskip]
    show lookupEntity (applyOp c1 (.add d.key d.fields)) d.key = _
    rw [lookup_applyOp_add, hpre'.trans hl]
    rfl
  | some c =>
    by_cases hcf : immutConflictFullB ks c d = true
    · have hblk : replacedOpsFor ks current d = [.remove d.key, .add d.key d.fields] := by
        simp only [replacedOpsFor, hl]
        rw [if_pos hcf]
      rw [hblk]
      refine ⟨⟨d.key, d.fields⟩, ?_, fieldsEquivB_refl hwfd⟩
      rw [hpostskip]
      show lookupEntity
        (applyOp (applyOp c1 (.remove d.key)) (.add d.key d.fields)) d.key = _
      rw [lookup_applyOp_add, lookup_applyOp_remove]
      rfl
    · by_cases hfeq : fieldsEquivB c.fields d.fields = true
      · have hblk : replacedOpsFor ks current d = [] := by
          simp only [replacedOpsFor, hl]
          rw [if_neg hcf, if_pos hfeq]
        rw [hblk]
        refine ⟨c, ?_, hfeq⟩
        rw [hpostskip]
        show lookupEntity c1 d.key = some c
        exact hpre'.trans hl
      · have hblk : replacedOpsFor ks current d = [.modify d.key d.fields] := by
          simp only [replacedOpsFor, hl]
          rw [if_neg hcf, if_neg hfeq]
        rw [hblk]
        refine ⟨⟨d.key, d.fields⟩, ?_, fieldsEquivB_refl hwfd⟩
        rw [hpostskip]
        show lookupEntity (applyOp c1 (.modify d.key d.fields)) d.key = _
        rw [lookup_applyOp_modify, hpre'.trans hl]
        rfl

/-- Under OVERRIDDEN, no current-only identity survives into after. -/
theorem after_keys_overridden {ks : KeySpec} {desired current : Config} {e : Entity}
    (he : e ∈ applyOps current (resolve ks desired current .overridden)) :
    e.key ∈ keysOf desired := by
  have hsplit : resolve ks desired current .overridden =
      currentOnlyRemoves desired current ++ desired.flatMap (replacedOpsFor ks current) := rfl
  rw [hsplit, applyOps_append] at he
  rcases keys_applyOps he with hkey | ⟨op, hop, hk⟩
  · have hrem : currentOnlyRemoves desired current =
        (((current.filter (fun x => (lookupEntity desired x.key).isNone)).map
          Entity.key).map Operation.remove) := by
      unfold currentOnlyRemoves
      rw [List.map_map]
      rfl
    obtain ⟨x, hx, hxk⟩ := List.mem_map.mp hkey
    rw [hrem] at hx
    obtain ⟨hxc, hxnin⟩ := mem_applyRemoves.mp hx
    cases hlx : lookupEntity desired x.key with
    | none =>
      exact absurd (List.mem_map.mpr ⟨x,
        List.mem_filter.mpr ⟨hxc, by simp [hlx]⟩, rfl⟩) hxnin
    | some y =>
      exact hxk ▸ mem_keys_of_lookupEntity hlx
  · obtain ⟨d', hd', hopd⟩ := List.mem_flatMap.mp hop
    have := opKey_replacedOpsFor hopd
    rw [this] at hk
    exact hk ▸ List.mem_map.mpr ⟨d', hd', rfl⟩

/-- C4: OVERRIDDEN completeness — the after state produced under OVERRIDDEN is
exactly the normalized desired document: every desired entity is present with
precisely its desired fields, and no entity outside desired's identities
survives. -/
theorem C4_overridden_completeness (ks : KeySpec) (desired current : Config)
    (r : EngineResult) (hd : keysNodup desired) (hwfd : ∀ e ∈ desired, e.wf)
    (h : engine ks desired current .overridden = .ok r) :
    (∀ d ∈ desired, ∃ e, lookupEntity r.after d.key = some e ∧
        fieldsEquivB e.fields d.fields = true) ∧
    (∀ e ∈ r.after, e.key ∈ keysOf desired) := by
  have hr := engine_ok_spec h
  subst hr
  dsimp only
  exact ⟨fun d hdm => lookup_after_overridden hd hdm (hwfd d hdm),
         fun e he => after_keys_overridden he⟩

/-- C4 witness: spec section 8 scenario 3 — current `{id 1, cost 30}`,
`{id 2, cost 40}`; desired OVERRIDDEN supplies only `{id 3, cost 60}`; the
desired entity id 3 is present in the after state. -/
theorem C4_witness :
    (lookupEntity
      (EngineResult.after ⟨[⟨1, [("cost", Value.i 30)]⟩, ⟨2, [("cost", Value.i 40)]⟩],
        [⟨3, [("cost", Value.i 60)]⟩], [.remove 1, .remove 2, .add 3 [("cost", Value.i 60)]],
        ["remove 1", "remove 2", "add 3"], true⟩) 3).isSome = true := by
  obtain ⟨e, he, -⟩ :=
    (C4_overridden_completeness ⟨[], [], []⟩ [⟨3, [("cost", Value.i 60)]⟩]
      [⟨1, [("cost", Value.i 30)]⟩, ⟨2, [("cost", Value.i 40)]⟩]
      ⟨[⟨1, [("cost", Value.i 30)]⟩, ⟨2, [("cost", Value.i 40)]⟩],
        [⟨3, [("cost", Value.i 60)]⟩], [.remove 1, .remove 2, .add 3 [("cost", Value.i 60)]],
        ["remove 1", "remove 2", "add 3"], true⟩
      (by decide) (by decide) (by decide)).1 ⟨3, [("cost", Value.i 60)]⟩ (by decide)
  rw [he]
  rfl

theorem idxOf?_eq_none {α : Type} [DecidableEq α] {l : List α} {a : α}
    (h : ∀ x ∈ l, x ≠ a) : idxOf? l a = none := by
  induction l with
  | nil => rfl
  | cons x xs ih =>
    unfold idxOf?
    rw [if_neg (h x (List.mem_cons_self x xs))]
    rw [ih (fun y hy => h y (List.mem_cons_of_mem _ hy))]
    rfl

theorem idxOf?_isSome_of_mem {α : Type} [DecidableEq α] {l : List α} {a : α}
    (h : a ∈ l) : ∃ i, idxOf? l a = some i := by
  induction l with
  | nil => simp at h
  | cons x xs ih =>
    unfold idxOf?
    by_cases hx : x = a
    · exact ⟨0, by rw [if_pos hx]⟩
    · rcases List.mem_cons.mp h with heq | hmem
      · exact absurd heq.symm hx
      · obtain ⟨i, hi⟩ := ih hmem
        exact ⟨i + 1, by rw [if_neg hx, hi]; rfl⟩

theorem idxOf?_lt_length {α : Type} [DecidableEq α] {l : List α} {a : α} {i : Nat}
    (h : idxOf? l a = some i) : i < l.length := by
  induction l generalizing i with
  | nil => cases h
  | cons x xs ih =>
    unfold idxOf? at h
    by_cases hx : x = a
    · rw [if_pos hx] at h
      injection h with h2
      subst h2
      simp
    · rw [if_neg hx] at h
      cases hj : idxOf? xs a with
      | none => rw [hj] at h; cases h
      | some j =>
        rw [hj] at h
        injection h with h2
        subst h2
        have := ih hj
        simp only [List.length_cons]
        omega

theorem idxOf?_cons {α : Type} [DecidableEq α] (x a : α) (xs : List α) :
    idxOf? (x :: xs) a = if x = a then some 0 else (idxOf? xs a).map (· + 1) := rfl

theorem idxOf?_append_none {α : Type} [DecidableEq α] {l1 l2 : List α} {a : α}
    (h : idxOf? l1 a = none) :
    idxOf? (l1 ++ l2) a = (idxOf? l2 a).map (· + l1.length) := by
  induction l1 with
  | nil => simp
  | cons x xs ih =>
    rw [idxOf?_cons] at h
    rw [List.cons_append, idxOf?_cons]
    by_cases hx : x = a
    · rw [if_pos hx] at h
      cases h
    · rw [if_neg hx] at h ⊢
      have hxs : idxOf? xs a = none := by
        cases hj : idxOf? xs a with
        | none => rfl
        | some j => rw [hj] at h; cases h
      rw [ih hxs]
      cases idxOf? l2 a with
      | none => rfl
      | some j =>
        simp only [Option.map_some', List.length_cons]
        rw [Nat.add_assoc]

theorem idxOf?_append_some {α : Type} [DecidableEq α] {l1 l2 : List α} {a : α} {i : Nat}
    (h : idxOf? l1 a = some i) : idxOf? (l1 ++ l2) a = some i := by
  induction l1 generalizing i with
  | nil => cases h
  | cons x xs ih =>
    rw [idxOf?_cons] at h
    rw [List.cons_append, idxOf?_cons]
    by_cases hx : x = a
    · rw [if_pos hx] at h ⊢
      exact h
    · rw [if_neg hx] at h ⊢
      cases hj : idxOf? xs a with
      | none => rw [hj] at h; cases h
      | some j =>
        rw [hj] at h
        rw [ih hj]
        exact h

theorem precedesB_append_left {α : Type} [DecidableEq α] {pre l : List α} {a b : α}
    (ha : idxOf? pre a = none) (hb : idxOf? pre b = none)
    (h : precedesB l a b = true) : precedesB (pre ++ l) a b = true := by
  unfold precedesB at h ⊢
  cases hia : idxOf? l a with
  | none => rw [hia] at h; cases h
  | some i =>
    cases hib : idxOf? l b with
    | none => rw [hia, hib] at h; cases h
    | some j =>
      rw [hia, hib] at h
      rw [idxOf?_append_none ha, idxOf?_append_none hb, hia, hib]
      simp only [Option.map_some']
      simp only [decide_eq_true_eq] at h ⊢
      omega

theorem precedesB_append_right {α : Type} [DecidableEq α] {l post : List α} {a b : α}
    (h : precedesB l a b = true) : precedesB (l ++ post) a b = true := by
  unfold precedesB at h ⊢
  cases hia : idxOf? l a with
  | none => rw [hia] at h; cases h
  | some i =>
    cases hib : idxOf? l b with
    | none => rw [hia, hib] at h; cases h
    | some j =>
      rw [hia, hib] at h
      rw [idxOf?_append_some hia, idxOf?_append_some hib]
      exact h

theorem precedesB_head_mem {α : Type} [DecidableEq α] {a b : α} {l : List α}
    (hab : a ≠ b) (hmem : b ∈ l) : precedesB (a :: l) a b = true := by
  obtain ⟨j, hj⟩ := idxOf?_isSome_of_mem hmem
  unfold precedesB idxOf?
  rw [if_pos rfl, if_neg hab, hj]
  simp

theorem precedesB_mem_append_singleton {α : Type} [DecidableEq α] {l : List α} {a b : α}
    (hmem : a ∈ l) (hnb : idxOf? l b = none) : precedesB (l ++ [b]) a b = true := by
  obtain ⟨i, hi⟩ := idxOf?_isSome_of_mem hmem
  have hlen := idxOf?_lt_length hi
  unfold precedesB
  rw [idxOf?_append_some hi, idxOf?_append_none hnb]
  have : idxOf? [b] b = some 0 := by
    unfold idxOf?
    rw [if_pos rfl]
  rw [this]
  simp only [Option.map_some', Nat.zero_add, decide_eq_true_eq]
  exact hlen

theorem cmdParentKey_emit {d : ParentDelta} {c : Command}
    (h : c ∈ emitEntityCommands d) : cmdParentKey c = d.key := by
  unfold emitEntityCommands at h
  split at h
  · rcases List.mem_cons.mp h with rfl | h'
    · rfl
    · obtain ⟨ck, _, rfl⟩ := List.mem_map.mp h'
      rfl
  · rcases List.mem_append.mp h with h' | h'
    · obtain ⟨ck, _, rfl⟩ := List.mem_map.mp h'
      rfl
    · rcases List.mem_singleton.mp h' with rfl
      rfl
  · rcases List.mem_cons.mp h with rfl | h'
    · rfl
    · rcases List.mem_append.mp h' with h'' | h''
      · obtain ⟨ck, _, rfl⟩ := List.mem_map.mp h''
        rfl
      · obtain ⟨ck, _, rfl⟩ := List.mem_map.mp h''
        rfl

/-- Isolate the command block one parent delta contributes to a batch: all
other commands belong to a different parent. -/
theorem emitBatch_block {ds : List ParentDelta} {pd : ParentDelta}
    (hnd : (ds.map ParentDelta.key).Nodup) (hmem : pd ∈ ds) :
    ∃ pre post, emitBatch ds = pre ++ emitEntityCommands pd ++ post ∧
      (∀ c ∈ pre, cmdParentKey c ≠ pd.key) ∧ (∀ c ∈ post, cmdParentKey c ≠ pd.key) := by
  induction ds with
  | nil => simp at hmem
  | cons x rest ih =>
    rw [List.map_cons, List.nodup_cons] at hnd
    rcases List.mem_cons.mp hmem with heq | hmem'
    · subst heq
      refine ⟨[], rest.flatMap emitEntityCommands, by simp [emitBatch], by simp, ?_⟩
      intro c hc
      obtain ⟨e, he, hce⟩ := List.mem_flatMap.mp hc
      rw [cmdParentKey_emit hce]
      intro hcontra
      exact hnd.1 (hcontra ▸ List.mem_map.mpr ⟨e, he, rfl⟩)
    · obtain ⟨pre, post, heq, hpre, hpost⟩ := ih hnd.2 hmem'
      refine ⟨emitEntityCommands x ++ pre, post, ?_, ?_, hpost⟩
      · show (x :: rest).flatMap emitEntityCommands = _
        rw [List.flatMap_cons]
        rw [show rest.flatMap emitEntityCommands = emitBatch rest from rfl, heq]
        simp [List.append_assoc]
      · intro c hc
        rcases List.mem_append.mp hc with hx | hp
        · rw [cmdParentKey_emit hx]
          intro hcontra
          exact hnd.1 (hcontra ▸ List.mem_map.mpr ⟨pd, hmem', rfl⟩)
        · exact hpre c hp

/-- C8: destroy-and-recreate and parent/child ordering. (1) When an immutable
field differs, the entity delta is promoted to REMOVE then ADD of the same
identity — the REMOVE precedes the ADD in the batch and no MODIFY for that
identity is emitted; (2) a parent-entity ADD precedes each of its child-entity
ADDs; (3) each child-entity REMOVE precedes its parent-entity REMOVE. -/
theorem C8_ordering_thm :
    (∀ (ks : KeySpec) (desired current : Config) (d c : Entity),
      keysNodup desired → d ∈ desired → lookupEntity current d.key = some c →
      immutConflictB ks c d = true →
      precedesB (resolve ks desired current .merged)
        (Operation.remove d.key) (Operation.add d.key d.fields) = true ∧
      (∀ p, Operation.modify d.key p ∉ resolve ks desired current .merged)) ∧
    (∀ (ds : List ParentDelta) (pd : ParentDelta) (ck : Nat),
      (ds.map ParentDelta.key).Nodup → pd ∈ ds → pd.kind = .add →
      ck ∈ pd.childAdds →
      precedesB (emitBatch ds) (Command.addParent pd.key)
        (Command.addChild pd.key ck) = true) ∧
    (∀ (ds : List ParentDelta) (pd : ParentDelta) (ck : Nat),
      (ds.map ParentDelta.key).Nodup → pd ∈ ds → pd.kind = .remove →
      ck ∈ pd.childRemoves →
      precedesB (emitBatch ds) (Command.removeChild pd.key ck)
        (Command.removeParent pd.key) = true) := by
  refine ⟨?_, ?_, ?_⟩
  · intro ks desired current d c hd hmem hl hcf
    obtain ⟨pre, post, heq, hpre, hpost⟩ :=
      flatMap_block (mergedOpsFor ks current)
        (fun _ op h => opKey_mergedOpsFor h) hd hmem
    have hblk : mergedOpsFor ks current d =
        [.remove d.key, .add d.key d.fields] := by
      simp only [mergedOpsFor, hl]
      rw [if_pos hcf]
    have hres : resolve ks desired current .merged =
        pre ++ ([.remove d.key, .add d.key d.fields] ++ post) := by
      show desired.flatMap (mergedOpsFor ks current) = _
      rw [heq, hblk]
      simp [List.append_assoc]
    constructor
    · rw [hres]
      apply precedesB_append_left
      · exact idxOf?_eq_none (fun op hop hc => hpre op hop (by rw [hc]; rfl))
      · exact idxOf?_eq_none (fun op hop hc => hpre op hop (by rw [hc]; rfl))
      · exact precedesB_append_right (precedesB_head_mem (by simp) (by simp))
    · intro p hmem'
      rw [hres] at hmem'
      rcases List.mem_append.mp hmem' with h1 | h1
      · exact hpre _ h1 rfl
      · rcases List.mem_append.mp h1 with h2 | h2
        · rcases List.mem_cons.mp h2 with heq2 | h3
          · cases heq2
          · rcases List.mem_singleton.mp h3 with heq3
            cases heq3
        · exact hpost _ h2 rfl
  · intro ds pd ck hnd hmem hkind hck
    obtain ⟨pre, post, heq, hpre, hpost⟩ := emitBatch_block hnd hmem
    have hblk : emitEntityCommands pd =
        Command.addParent pd.key :: pd.childAdds.map (Command.addChild pd.key) := by
      simp only [emitEntityCommands, hkind]
    rw [heq, hblk, List.append_assoc]
    apply precedesB_append_left
    · exact idxOf?_eq_none (fun cc hcc hc => hpre cc hcc (by rw [hc]; rfl))
    · exact idxOf?_eq_none (fun cc hcc hc => hpre cc hcc (by rw [hc]; rfl))
    · rw [List.cons_append]
      exact precedesB_head_mem (by simp)
        (List.mem_append.mpr (Or.inl (List.mem_map.mpr ⟨ck, hck, rfl⟩)))
  · intro ds pd ck hnd hmem hkind hck
    obtain ⟨pre, post, heq, hpre, hpost⟩ := emitBatch_block hnd hmem
    have hblk : emitEntityCommands pd =
        pd.childRemoves.map (Command.removeChild pd.key) ++
          [Command.removeParent pd.key] := by
      simp only [emitEntityCommands, hkind]
    rw [heq, hblk, List.append_assoc]
    apply precedesB_append_left
    · exact idxOf?_eq_none (fun cc hcc hc => hpre cc hcc (by rw [hc]; rfl))
    · exact idxOf?_eq_none (fun cc hcc hc => hpre cc hcc (by rw [hc]; rfl))
    · apply precedesB_append_right
      apply precedesB_mem_append_singleton
      · exact List.mem_map.mpr ⟨ck, hck, rfl⟩
      · refine idxOf?_eq_none (fun cc hcc => ?_)
        obtain ⟨ck', _, rfl⟩ := List.mem_map.mp hcc
        simp

/-- C8 witness: spec section 8 scenario 5 (immutable `auth_key` change under
MERGED yields REMOVE before ADD) plus concrete parent/child batches. -/
theorem C8_witness :
    (precedesB (resolve ⟨[], ["auth_key"], []⟩ [⟨1, [("auth_key", Value.s "Y")]⟩]
        [⟨1, [("auth_key", Value.s "X")]⟩] Mode.merged)
      (Operation.remove 1) (Operation.add 1 [("auth_key", Value.s "Y")]) = true) ∧
    (precedesB (emitBatch [⟨5, .add, [7], []⟩])
      (Command.addParent 5) (Command.addChild 5 7) = true) ∧
    (precedesB (emitBatch [⟨5, .remove, [], [7]⟩])
      (Command.removeChild 5 7) (Command.removeParent 5) = true) :=
  ⟨(C8_ordering_thm.1 ⟨[], ["auth_key"], []⟩ [⟨1, [("auth_key", Value.s "Y")]⟩]
      [⟨1, [("auth_key", Value.s "X")]⟩] ⟨1, [("auth_key", Value.s "Y")]⟩
      ⟨1, [("auth_key", Value.s "X")]⟩ (by decide) (by decide) (by decide) (by decide)).1,
   C8_ordering_thm.2.1 [⟨5, .add, [7], []⟩] ⟨5, .add, [7], []⟩ 7
      (by decide) (by decide) (by decide) (by decide),
   C8_ordering_thm.2.2 [⟨5, .remove, [], [7]⟩] ⟨5, .remove, [], [7]⟩ 7
      (by decide) (by decide) (by decide) (by decide)⟩

theorem lookupF_removeFieldNames_not_mem {fs : List (FieldName × Value)}
    {names : List FieldName} {f : FieldName} (h : f ∉ names) :
    lookupF (removeFieldNames fs names) f = lookupF fs f := by
  induction fs with
  | nil => rfl
  | cons p rest ih =>
    by_cases hp : p.1 = f
    · have hq : (!names.contains p.1) = true := by
        rw [hp]
        simpa using h
      unfold removeFieldNames
      rw [List.filter_cons, if_pos hq]
      unfold lookupF
      rw [List.find?_cons_of_pos _ (by simp [hp]), List.find?_cons_of_pos _ (by simp [hp])]
    · by_cases hq : (!names.contains p.1) = true
      · unfold removeFieldNames
        rw [List.filter_cons, if_pos hq]
        unfold lookupF
        rw [List.find?_cons_of_neg _ (by simp [hp]), List.find?_cons_of_neg _ (by simp [hp])]
        exact ih
      · unfold removeFieldNames
        rw [List.filter_cons, if_neg hq]
        unfold lookupF at ih ⊢
        rw [List.find?_cons_of_neg _ (by simp [hp])]
        exact ih

/-- C5 counterexample: under MERGED, a desired change to the immutable field
`auth_key` (spec section 8 scenario 5) resolves to a batch containing a REMOVE
operation for an entity that no DELETED-style selector field-targets — MERGED
mode has no such selectors at all. -/
theorem C5_counterexample :
    Operation.remove 1 ∈ resolve ⟨[], ["auth_key"], []⟩
      [⟨1, [("auth_key", Value.s "Y")]⟩] [⟨1, [("auth_key", Value.s "X")]⟩]
      Mode.merged := by decide

/-- C5 (amended): MERGED monotonicity. A REMOVE appears in a MERGED batch only
as the destroy half of a destroy-and-recreate forced by an immutable-field
conflict, and is then accompanied by the ADD of the same identity; MERGED
emits no field-level removal at all; and every entity present only on the
device is untouched in `after`. -/
theorem C5_merged_monotonicity :
    (∀ (ks : KeySpec) (desired current : Config) (k : Nat),
      Operation.remove k ∈ resolve ks desired current .merged →
      ∃ d ∈ desired, d.key = k ∧ ∃ c, lookupEntity current k = some c ∧
        immutConflictB ks c d = true ∧
        Operation.add k d.fields ∈ resolve ks desired current .merged) ∧
    (∀ (ks : KeySpec) (desired current : Config) (k : Nat) (names : List FieldName),
      Operation.removeFields k names ∉ resolve ks desired current .merged) ∧
    (∀ (ks : KeySpec) (desired current : Config) (r : EngineResult) (e : Entity),
      engine ks desired current .merged = .ok r → e ∈ current →
      e.key ∉ keysOf desired →
      lookupEntity r.after e.key = lookupEntity current e.key) := by
  refine ⟨?_, ?_, ?_⟩
  · intro ks desired current k hop
    obtain ⟨d, hd, hopd⟩ := List.mem_flatMap.mp hop
    have hkey : k = d.key := opKey_mergedOpsFor hopd
    subst hkey
    refine ⟨d, hd, rfl, ?_⟩
    cases hl : lookupEntity current d.key with
    | none =>
      simp only [mergedOpsFor, hl] at hopd
      rcases List.mem_singleton.mp hopd with heq
      cases heq
    | some c =>
      by_cases hcf : immutConflictB ks c d = true
      · refine ⟨c, rfl, hcf, ?_⟩
        refine List.mem_flatMap.mpr ⟨d, hd, ?_⟩
        simp only [mergedOpsFor, hl]
        rw [if_pos hcf]
        simp
      · simp only [mergedOpsFor, hl] at hopd
        rw [if_neg hcf] at hopd
        split at hopd
        · simp at hopd
        · rcases List.mem_singleton.mp hopd with heq
          cases heq
  · intro ks desired current k names hop
    obtain ⟨d, hd, hopd⟩ := List.mem_flatMap.mp hop
    cases hl : lookupEntity current d.key with
    | none =>
      simp only [mergedOpsFor, hl] at hopd
      rcases List.mem_singleton.mp hopd with heq
      cases heq
    | some c =>
      simp only [mergedOpsFor, hl] at hopd
      by_cases hcf : immutConflictB ks c d = true
      · rw [if_pos hcf] at hopd
        rcases List.mem_cons.mp hopd with heq | h3
        · cases heq
        · rcases List.mem_singleton.mp h3 with heq
          cases heq
      · rw [if_neg hcf] at hopd
        split at hopd
        · simp at hopd
        · rcases List.mem_singleton.mp hopd with heq
          cases heq
  · intro ks desired current r e hok hmem hnk
    have hr := engine_ok_spec hok
    subst hr
    dsimp only
    refine lookup_applyOps_ne ?_
    intro op hop
    obtain ⟨d, hd, hopd⟩ := List.mem_flatMap.mp hop
    rw [opKey_mergedOpsFor hopd]
    intro hcontra
    exact hnk (hcontra ▸ List.mem_map.mpr ⟨d, hd, rfl⟩)

/-- C5 witness: MERGED emits no field-level removals, and a device-only entity
(spec section 8 scenario 1) is untouched after a MERGED run. -/
theorem C5_witness :
    (Operation.removeFields 9 ["x"] ∉
      resolve ⟨[], [], []⟩ [⟨1, []⟩] [⟨2, []⟩] Mode.merged) ∧
    (lookupEntity (EngineResult.after ⟨[⟨2, [("vlan", Value.i 20)]⟩],
        [⟨2, [("vlan", Value.i 20)]⟩, ⟨3, [("vlan", Value.i 30)]⟩],
        [.add 3 [("vlan", Value.i 30)]], ["add 3"], true⟩) 2 =
      lookupEntity [⟨2, [("vlan", Value.i 20)]⟩] 2) :=
  ⟨C5_merged_monotonicity.2.1 ⟨[], [], []⟩ [⟨1, []⟩] [⟨2, []⟩] 9 ["x"],
   C5_merged_monotonicity.2.2 ⟨[], [], []⟩ [⟨3, [("vlan", Value.i 30)]⟩]
     [⟨2, [("vlan", Value.i 20)]⟩]
     ⟨[⟨2, [("vlan", Value.i 20)]⟩],
       [⟨2, [("vlan", Value.i 20)]⟩, ⟨3, [("vlan", Value.i 30)]⟩],
       [.add 3 [("vlan", Value.i 30)]], ["add 3"], true⟩
     ⟨2, [("vlan", Value.i 20)]⟩ (by decide) (by decide) (by decide)⟩

/-- After a DELETED run, a selector-listed but non-deletable field keeps its
value on the surviving entity. -/
theorem lookup_after_deleted_nondeletable {ks : KeySpec} {desired current : Config}
    {d c : Entity} {f : FieldName}
    (hd : keysNodup desired) (hmem : d ∈ desired) (hne : d.fields.isEmpty = false)
    (hcur : lookupEntity current d.key = some c) (hf : f ∈ ks.nonDeletable) :
    (lookupEntity (applyOps current (resolveDeleted ks desired current)) d.key).map
      (fun e => getField e f) = some (getField c f) := by
  have hdesne : ¬ desired.isEmpty = true := by
    cases desired
    · simp at hmem
    · simp
  obtain ⟨pre, post, heq, hpre, hpost⟩ :=
    flatMap_block (deletedOpsFor ks current)
      (fun _ op h => opKey_deletedOpsFor h) hd hmem
  have hres : resolveDeleted ks desired current =
      pre ++ (deletedOpsFor ks current d ++ post) := by
    unfold resolveDeleted
    rw [if_neg hdesne]
    simpa [List.append_assoc] using heq
  rw [hres, applyOps_append, applyOps_append]
  have hlook1 : lookupEntity (applyOps current pre) d.key = lookupEntity current d.key :=
    lookup_applyOps_ne hpre
  have hpostskip : ∀ c' : Config,
      lookupEntity (applyOps c' post) d.key = lookupEntity c' d.key :=
    fun c' => lookup_applyOps_ne hpost
  have hfe : ¬ d.fields.isEmpty = true := by
    rw [hne]
    simp
  set names := (d.fields.map Prod.fst).filter
      (fun g => !ks.nonDeletable.contains g && (lookupF c.fields g).isSome) with hnames
  by_cases hns : names.isEmpty = true
  · have hblk : deletedOpsFor ks current d = [] := by
      simp only [deletedOpsFor, hcur]
      rw [if_neg hfe, ← hnames, if_pos hns]
    rw [hblk, hpostskip]
    show (lookupEntity (applyOps current pre) d.key).map _ = _
    rw [hlook1, hcur]
    rfl
  · have hblk : deletedOpsFor ks current d = [.removeFields d.key names] := by
      simp only [deletedOpsFor, hcur]
      rw [if_neg hfe, ← hnames, if_neg hns]
    rw [hblk, hpostskip]
    show (lookupEntity
      (applyOp (applyOps current pre) (.removeFields d.key names)) d.key).map _ = _
    rw [lookup_applyOp_removeFields, hlook1, hcur]
    simp only [Option.map_some']
    have hfn : f ∉ names := by
      rw [hnames]
      intro hmemf
      have hcond := (List.mem_filter.mp hmemf).2
      rw [Bool.and_eq_true] at hcond
      have h1 := hcond.1
      have h2 : f ∉ ks.nonDeletable := by simpa using h1
      exact h2 hf
    show some (getField ⟨d.key, removeFieldNames c.fields names⟩ f) = some (getField c f)
    unfold getField
    rw [lookupF_removeFieldNames_not_mem hfn]

/-- C6: non-deletable field rule. A DELETED-mode selector that field-targets a
field declared non-deletable (e.g. the NTP server fields key_id, minpoll,
maxpoll, prefer) is a no-op for that field — the run succeeds without error
and the field keeps its value. -/
theorem C6_non_deletable_noop (ks : KeySpec) (desired current : Config)
    (d c : Entity) (f : FieldName)
    (hd : keysNodup desired) (hmem : d ∈ desired) (hne : d.fields.isEmpty = false)
    (hcur : lookupEntity current d.key = some c) (hf : f ∈ ks.nonDeletable) :
    (engine ks desired current .deleted).isOk = true ∧
    (engine ks desired current .deleted).map
      (fun r => (lookupEntity r.after d.key).map (fun e => getField e f)) =
      .ok (some (getField c f)) := by
  rw [engine_deleted_ok]
  refine ⟨rfl, ?_⟩
  show Except.ok ((lookupEntity
    (applyOps current (resolve ks desired current .deleted)) d.key).map
      (fun e => getField e f)) = _
  have hres : resolve ks desired current .deleted = resolveDeleted ks desired current := rfl
  rw [hres, lookup_after_deleted_nondeletable hd hmem hne hcur hf]

/-- C6 witness: an NTP-style server entity whose selector lists the
non-deletable `minpoll` field keeps that field after a DELETED run. -/
theorem C6_witness :
    ((engine ntp_servers_keyspec [⟨1, [("minpoll", Value.i 6)]⟩]
        [⟨1, [("minpoll", Value.i 6), ("maxpoll", Value.i 10)]⟩]
        Mode.deleted).isOk = true) ∧
    ((engine ntp_servers_keyspec [⟨1, [("minpoll", Value.i 6)]⟩]
        [⟨1, [("minpoll", Value.i 6), ("maxpoll", Value.i 10)]⟩] Mode.deleted).map
      (fun r => (lookupEntity r.after 1).map (fun e => getField e "minpoll")) =
      .ok (some (getField
        (⟨1, [("minpoll", Value.i 6), ("maxpoll", Value.i 10)]⟩ : Entity) "minpoll"))) :=
  C6_non_deletable_noop ntp_servers_keyspec [⟨1, [("minpoll", Value.i 6)]⟩]
    [⟨1, [("minpoll", Value.i 6), ("maxpoll", Value.i 10)]⟩]
    ⟨1, [("minpoll", Value.i 6)]⟩ ⟨1, [("minpoll", Value.i 6), ("maxpoll", Value.i 10)]⟩
    "minpoll" (by decide) (by decide) (by decide) (by decide) (by decide)

/-- C7: all-or-nothing validation. When any ADD in the resolved batch lacks a
`required_for_create` field, the engine fails with IncompleteEntityError
before emission and returns no result — hence no commands at all. -/
theorem C7_incomplete_entity (ks : KeySpec) (desired current : Config) (m : Mode)
    (k : Nat) (p : List (FieldName × Value)) (f : FieldName)
    (hop : Operation.add k p ∈ resolve ks desired current m)
    (hf : f ∈ ks.requiredForCreate) (hmiss : lookupF p f = none) :
    engine ks desired current m = .error .incompleteEntity ∧
    ∀ r : EngineResult, engine ks desired current m ≠ .ok r := by
  have hnot : ¬ (resolve ks desired current m).all (requiredOkOp ks) = true := by
    intro hall
    rw [List.all_eq_true] at hall
    have h1 := hall _ hop
    simp only [requiredOkOp] at h1
    rw [List.all_eq_true] at h1
    have h2 := h1 f hf
    rw [hmiss] at h2
    simp at h2
  have heng : engine ks desired current m = .error .incompleteEntity := by
    simp only [engine]
    rw [if_neg hnot]
  exact ⟨heng, fun r hr => by rw [heng] at hr; cases hr⟩

/-- C7 witness: a sonic_qos_buffer buffer-pools entry created without the
required non-key attribute `xoff` aborts the invocation with
IncompleteEntityError and no commands. -/
theorem C7_witness :
    engine qos_buffer_pools_keyspec [⟨1, []⟩] [] Mode.merged =
      .error .incompleteEntity :=
  (C7_incomplete_entity qos_buffer_pools_keyspec [⟨1, []⟩] [] Mode.merged 1 [] "xoff"
    (by decide) (by decide) (by decide)).1

/-- C2 counterexample: sonic_roce declares only merged and sonic_qos_buffer
only merged and deleted, so modes among the four are rejected there — the
universally quantified "exactly the four values for every module" fails. -/
theorem C2_counterexample :
    ("sonic_roce", sonic_roce_state) ∈ allModules ∧
    "deleted" ∈ fourStates ∧
    acceptsState sonic_roce_state "deleted" = false ∧
    ("sonic_qos_buffer", sonic_qos_buffer_state) ∈ allModules ∧
    "replaced" ∈ fourStates ∧
    acceptsState sonic_qos_buffer_state "replaced" = false := by decide

/-- C2 (amended): every module accepts only values among the four mode values
and always accepts merged; every module except sonic_roce (merged only) and
sonic_qos_buffer (merged and deleted only) accepts exactly the four. -/
theorem C2_amended_thm :
    ∀ p ∈ allModules,
      (∀ v, acceptsState p.2 v = true → v ∈ fourStates) ∧
      acceptsState p.2 "merged" = true ∧
      (p.1 ≠ "sonic_roce" → p.1 ≠ "sonic_qos_buffer" →
        ∀ v ∈ fourStates, acceptsState p.2 v = true) ∧
      (p.1 = "sonic_roce" → p.2.choices = ["merged"]) ∧
      (p.1 = "sonic_qos_buffer" → p.2.choices = ["merged", "deleted"]) := by
  intro p hp
  refine ⟨?_, ?_, ?_, ?_, ?_⟩
  · intro v hv
    have hv' : v ∈ p.2.choices := by
      have he : p.2.choices.elem v = true := hv
      exact List.mem_of_elem_eq_true he
    have hsub : ∀ x ∈ p.2.choices, x ∈ fourStates := by
      fin_cases hp <;> decide
    exact hsub v hv'
  · fin_cases hp <;> decide
  · intro h1 h2 v hv
    fin_cases hp <;> first
      | exact absurd rfl h1
      | exact absurd rfl h2
      | revert hv; revert v; decide
  · intro h1
    fin_cases hp <;> first
      | rfl
      | exact absurd h1 (by decide)
  · intro h1
    fin_cases hp <;> first
      | rfl
      | exact absurd h1 (by decide)

/-- C2 witness: the amended statement at the sonic_mac module. -/
theorem C2_amended_witness : acceptsState sonic_mac_state "merged" = true :=
  (C2_amended_thm ("sonic_mac", sonic_mac_state) (by decide)).2.1

/-- C3 counterexample: the sonic_mac RETURN declaration returns `after` only
"when changed", and an unchanged invocation's result carries `before` and
`commands` but no `after` key — so `after` is not present in every result. -/
theorem C3_counterexample :
    lookupStr sonic_mac_RETURN "after" = some "when changed" ∧
    lookupStr sonic_mac_RETURN "before" = some "always" ∧
    lookupStr sonic_mac_RETURN "commands" = some "always" ∧
    moduleResult ⟨[], [], []⟩ [⟨1, [("x", Value.i 1)]⟩] [⟨1, [("x", Value.i 1)]⟩]
      Mode.merged = .ok (["changed", "before", "commands"], false) ∧
    "after" ∉ ["changed", "before", "commands"] := by decide

/-- C3 (amended): result contract — every successful engine invocation has
`changed` true iff the resolved Operation list is non-empty, carries `before`
(the current snapshot) and `commands`; the reported result always holds the
`changed`, `before` and `commands` keys, and holds `after` iff changed. -/
theorem C3_result_contract (ks : KeySpec) (desired current : Config) (m : Mode)
    (r : EngineResult) (h : engine ks desired current m = .ok r) :
    (r.changed = true ↔ r.ops ≠ []) ∧ r.before = current ∧
    r.commands = r.ops.map render ∧
    "changed" ∈ resultKeys r.changed false ∧
    "before" ∈ resultKeys r.changed false ∧
    "commands" ∈ resultKeys r.changed false ∧
    ("after" ∈ resultKeys r.changed false ↔ r.changed = true) := by
  have hr := engine_ok_spec h
  subst hr
  dsimp only
  refine ⟨?_, rfl, rfl, ?_, ?_, ?_, ?_⟩
  · cases hc : (resolve ks desired current m).isEmpty with
    | true =>
      have : resolve ks desired current m = [] := by
        cases hre : resolve ks desired current m
        · rfl
        · rw [hre] at hc; cases hc
      simp [this]
    | false =>
      have : resolve ks desired current m ≠ [] := by
        intro hre
        rw [hre] at hc
        cases hc
      simp [this]
  · cases (resolve ks desired current m).isEmpty <;> decide
  · cases (resolve ks desired current m).isEmpty <;> decide
  · cases (resolve ks desired current m).isEmpty <;> decide
  · cases (resolve ks desired current m).isEmpty <;> decide

/-- C3 witness: the amended result contract at a concrete changed invocation. -/
theorem C3_witness :
    "before" ∈ resultKeys
      (EngineResult.changed ⟨[], [⟨1, []⟩], [.add 1 []], ["add 1"], true⟩) false ∧
    ("after" ∈ resultKeys
        (EngineResult.changed ⟨[], [⟨1, []⟩], [.add 1 []], ["add 1"], true⟩) false ↔
      EngineResult.changed ⟨[], [⟨1, []⟩], [.add 1 []], ["add 1"], true⟩ = true) := by
  have h := C3_result_contract ⟨[], [], []⟩ [⟨1, []⟩] [] Mode.merged
    ⟨[], [⟨1, []⟩], [.add 1 []], ["add 1"], true⟩ (by decide)
  exact ⟨h.2.2.2.2.1, h.2.2.2.2.2.2⟩

/-- C9: every module and argspec in the source declares `default: merged` for
`state`, and the modelled runtime resolves an omitted `state` to exactly the
same value as an explicit merged. -/
theorem C9_default_merged :
    ∀ p ∈ allModules, p.2.default = "merged" ∧
      resolveState p.2 none = resolveState p.2 (some "merged") := by decide

/-- C9 witness: the default at the sonic_mac module. -/
theorem C9_witness :
    sonic_mac_state.default = "merged" ∧
    resolveState sonic_mac_state none = resolveState sonic_mac_state (some "merged") :=
  C9_default_merged ("sonic_mac", sonic_mac_state) (by decide)

theorem two_le_length_of_two_mem {α : Type} {l : List α} {a b : α}
    (ha : a ∈ l) (hb : b ∈ l) (hab : a ≠ b) : 2 ≤ l.length := by
  cases l with
  | nil => simp at ha
  | cons x t =>
    cases t with
    | nil =>
      rcases List.mem_singleton.mp ha with rfl
      rcases List.mem_singleton.mp hb with rfl
      exact absurd rfl hab
    | cons y t2 =>
      simp only [List.length_cons]
      omega

/-- C10: the sonic_stp argument spec declares mstp, pvst and rapid_pvst
mutually exclusive; any config supplying two distinct members of that group
fails the mutually-exclusive check and is rejected before diffing. -/
theorem C10_stp_mutually_exclusive (present : List String) (a b : String)
    (hab : a ≠ b) (ha : a ∈ ["mstp", "pvst", "rapid_pvst"])
    (hb : b ∈ ["mstp", "pvst", "rapid_pvst"])
    (hpa : a ∈ present) (hpb : b ∈ present) :
    stpConfigAccepted present = false := by
  unfold stpConfigAccepted mutuallyExclusiveOk stp_mutually_exclusive
  simp only [List.all_cons, List.all_nil, Bool.and_true]
  have hca : (present.contains a) = true := List.elem_eq_true_of_mem hpa
  have hcb : (present.contains b) = true := List.elem_eq_true_of_mem hpb
  have hma : a ∈ ["mstp", "pvst", "rapid_pvst"].filter (fun f => present.contains f) :=
    List.mem_filter.mpr ⟨ha, hca⟩
  have hmb : b ∈ ["mstp", "pvst", "rapid_pvst"].filter (fun f => present.contains f) :=
    List.mem_filter.mpr ⟨hb, hcb⟩
  have h2 := two_le_length_of_two_mem hma hmb hab
  simp only [decide_eq_false_iff_not]
  omega

/-- C10 witness: supplying both mstp and pvst is rejected. -/
theorem C10_witness : stpConfigAccepted ["mstp", "pvst"] = false :=
  C10_stp_mutually_exclusive ["mstp", "pvst"] "mstp" "pvst"
    (by decide) (by decide) (by decide) (by decide) (by decide)
